import Mathlib

/-!
Verification development for the SoftScript repository's AppleSoft BASIC
toolchain: the byte utilities (`DataUtil`), the BASIC assembler
(`ApplesoftAssembler`), the BASIC disassembler (`ApplesoftDisassembler`),
the WAVE header writer (`WaveFileGenerator.getHeader`) and the decoder's
frequency smoothing (`WaveFileReader.getClosestKnownFrequency`) are embedded
shallowly as executable Lean functions, and the specified properties are
proved or refuted against them.

Conventions of the embedding:
* JS strings are `List Char`; `charCodeAt` is `Char.toNat` (the inputs in
  question are UTF-16 single-code-unit text).
* JS numbers that the code uses as integers are `Nat`/`Int`; the single
  float-valued function treated here (`getClosestKnownFrequency`) is embedded
  over `ℚ`, an exact field, since it only subtracts and compares.
* `parseInt` returning `NaN` is `Option.none`.
* Thrown exceptions are `Except.error`; the error kinds mirror the distinct
  `throw new Error(...)` sites.
* Out-of-bounds JS array reads yield `undefined`, which the bitwise operators
  the code applies to them coerce to `0`; `jsGet` models exactly that.
-/

namespace SoftScript

/-- The exceptions the embedded code can throw.  `invalidLineNumber` is the
assembler's `Line number is invalid` throw; `outOfRange` covers
`DataUtil.readInt16`'s bounds throw and the range checks of the Node buffer
write methods; `overflow` is `createBufferedString`'s size throw;
`unexpectedBufferLength` is `createdBufferedUnsignedNumber`'s final branch;
`checksumMismatch` is `DataUtil.validateChecksum`'s throw.  `fuelExhausted`
has no source counterpart: it is the conventional out-of-fuel result of the
total encoding of the disassembler's `while` loop, and is never reached at
the fuel `disassemble` supplies. -/
inductive JsError
  | invalidLineNumber (value : Option Int)
  | outOfRange
  | overflow
  | unexpectedBufferLength
  | checksumMismatch (expected computed : Nat)
  | fuelExhausted
  deriving Repr, DecidableEq

instance {ε α : Type} [DecidableEq ε] [DecidableEq α] : DecidableEq (Except ε α) := fun x y =>
  match x, y with
  | .ok a, .ok b =>
    if h : a = b then isTrue (by rw [h]) else isFalse fun hc => h (Except.ok.inj hc)
  | .error a, .error b =>
    if h : a = b then isTrue (by rw [h]) else isFalse fun hc => h (Except.error.inj hc)
  | .ok _, .error _ => isFalse fun hc => Except.noConfusion hc
  | .error _, .ok _ => isFalse fun hc => Except.noConfusion hc

/-- The JS whitespace characters (`\s`, `trim`) that can occur in the
inputs this development deals with. -/
def jsWhitespace (c : Char) : Bool :=
  c = ' ' || c = '\t' || c = '\n' || c = '\r' || c = '\x0b' || c = '\x0c'

/-- `charCodeAt` for a single-code-unit character. -/
def charCode (c : Char) : Nat := c.toNat

/-- JS `array[i]` as consumed by `<<`/`|`: an in-range read yields the
element, an out-of-range read yields `undefined`, which the bitwise
operators coerce to `0`. -/
def jsGet (bytes : List Nat) (i : Int) : Nat :=
  if 0 ≤ i then bytes.getD i.toNat 0 else 0

/-- `DataUtil.computeChecksum`: the XOR fold over the bytes, seeded with
`0xFF` ("Unlike most checksums, Apple uses 0xFF instead of 0x00"). -/
def computeChecksum (bytes : List Nat) : Nat :=
  bytes.foldl (fun state byte => state ^^^ byte) 0xff

/-- `DataUtil.readInt16`: reads the two-byte little-endian value beginning at
`index`, failing when `index + 1 >= bytes.length`, and otherwise returning
`(bytes[index + 1] << 8) | bytes[index]`. -/
def readInt16 (bytes : List Nat) (index : Int) : Except JsError Nat :=
  if (bytes.length : Int) ≤ index + 1 then .error .outOfRange
  else .ok ((jsGet bytes (index + 1)) <<< 8 ||| jsGet bytes index)

/-! ## The decoder's frequency smoothing (`WaveFileReader`) -/

/-- `Math.abs` over exact rationals. -/
def jsAbs (x : ℚ) : ℚ := if x < 0 then -x else x

/-- The known-frequency constants of `WaveFileReader`, in exactly the order
`getClosestKnownFrequency` lists them: `_FREQUENCY_LEADER`,
`_FREQUENCY_ZERO_LOW_FREQUENCY`, `_FREQUENCY_SYNC_BIT`,
`_FREQUENCY_ONE_LOW_FREQUENCY`, `_FREQUENCY_ZERO_HIGH_FREQUENCY`,
`_FREQUENCY_ONE_HIGH_FREQUENCY`. -/
def knownFrequencyes : List ℚ := [770, 2000, 2500, 1000, 12000, 6000]

/-- `_MAXIMUM_FREQUENCY_DIVERGENCE`. -/
def maximumFrequencyDivergence : ℚ := 250

/-- Lodash `_.minBy` over a nonempty prefix: keeps the current best and
replaces it only when a strictly smaller iteratee value appears, so ties
resolve to the earliest element. -/
def minByAux (f : ℚ → ℚ) : ℚ → List ℚ → ℚ
  | best, [] => best
  | best, x :: xs => if f x < f best then minByAux f x xs else minByAux f best xs

/-- Lodash `_.minBy`: `none` on an empty list (JS `undefined`). -/
def minBy (f : ℚ → ℚ) : List ℚ → Option ℚ
  | [] => none
  | x :: xs => some (minByAux f x xs)

/-- `WaveFileReader.getClosestKnownFrequency`: picks the known frequency of
minimal absolute distance (`_.minBy(knownFrequencyes, f => Math.abs(f - freq))
?? 0`), then returns the observed frequency unchanged when
`freq - min > _MAXIMUM_FREQUENCY_DIVERGENCE` — note the signed distance —
and the chosen known frequency otherwise. -/
def getClosestKnownFrequency (freq : ℚ) : ℚ :=
  let min := (minBy (fun f => jsAbs (f - freq)) knownFrequencyes).getD 0
  let dist := freq - min
  if dist > maximumFrequencyDivergence then freq else min

/-- The eight-element known-frequency set that the specification's step 6 of
§4.6 claims the decoder rounds to (it includes 1500 and 2250, which the code
does not know). -/
def claimedKnownFrequencies : List ℚ := [770, 1000, 1500, 2000, 2250, 2500, 6000, 12000]

/-! ## The WAVE header writer (`WaveFileGenerator`) -/

/-- `WaveFileGenerator._SAMPLE_RATE`. -/
def waveSampleRate : Nat := 48000

/-- `WaveFileGenerator._FORMAT_TYPE` (1 = PCM). -/
def waveFormatType : Nat := 1

/-- `WaveFileGenerator._NUMBER_CHANNELS`. -/
def waveNumberChannels : Nat := 1

/-- `WaveFileGenerator._BYTES_PER_SAMPLE`. -/
def waveBytesPerSample : Nat := 1

/-- `WaveFileGenerator._BITS_PER_SAMPLE = _BYTES_PER_SAMPLE * 8`. -/
def waveBitsPerSample : Nat := waveBytesPerSample * 8

/-- `DataUtil.createBufferedString`: a zero-padded fixed-size buffer holding
the string's bytes (ASCII contents), failing when the string is longer than
the buffer. -/
def createBufferedString (bufferLength : Nat) (contents : List Char) :
    Except JsError (List Nat) :=
  if bufferLength < contents.length then .error .overflow
  else .ok (contents.map charCode ++ List.replicate (bufferLength - contents.length) 0)

/-- `DataUtil.createdBufferedUnsignedNumber`: a little-endian unsigned write
of 4, 2 or 1 bytes (any other size throws), range-checked the way the Node
`writeUInt32LE`/`writeUInt16LE`/`writeUint8` methods are. -/
def createdBufferedUnsignedNumber (bufferLength contents : Nat) :
    Except JsError (List Nat) :=
  if bufferLength = 4 then
    if contents < 2 ^ 32 then
      .ok [contents % 256, contents / 256 % 256, contents / 2 ^ 16 % 256, contents / 2 ^ 24 % 256]
    else .error .outOfRange
  else if bufferLength = 2 then
    if contents < 2 ^ 16 then .ok [contents % 256, contents / 256 % 256]
    else .error .outOfRange
  else if bufferLength = 1 then
    if contents < 2 ^ 8 then .ok [contents] else .error .outOfRange
  else .error .unexpectedBufferLength

/-- `WaveFileGenerator.getHeader`: the 44-byte RIFF/WAVE header for a PCM
data section of `dataSizeBytes` bytes.  The byte-rate field is written as
`_SAMPLE_RATE * _BITS_PER_SAMPLE * _BYTES_PER_SAMPLE`. -/
def getHeader (dataSizeBytes : Nat) : Except JsError (List Nat) := do
  let headerSize := 44
  let fileSize := dataSizeBytes + headerSize - 8
  let chunkId ← createBufferedString 4 [ 'R', 'I', 'F', 'F' ]
  let chunkSize ← createdBufferedUnsignedNumber 4 fileSize
  let format ← createBufferedString 4 [ 'W', 'A', 'V', 'E' ]
  let sub1Id ← createBufferedString 4 [ 'f', 'm', 't', ' ' ]
  let sub1Size ← createdBufferedUnsignedNumber 4 16
  let audioFormat ← createdBufferedUnsignedNumber 2 waveFormatType
  let numChannels ← createdBufferedUnsignedNumber 2 waveNumberChannels
  let sampleRate ← createdBufferedUnsignedNumber 4 waveSampleRate
  let byteRate ← createdBufferedUnsignedNumber 4
    (waveSampleRate * waveBitsPerSample * waveBytesPerSample)
  let blockAlign ← createdBufferedUnsignedNumber 2 (waveNumberChannels * waveBytesPerSample)
  let bitsPerSample ← createdBufferedUnsignedNumber 2 waveBitsPerSample
  let sub2Id ← createBufferedString 4 [ 'd', 'a', 't', 'a' ]
  let sub2Size ← createdBufferedUnsignedNumber 4 dataSizeBytes
  .ok (chunkId ++ chunkSize ++ format ++ sub1Id ++ sub1Size ++ audioFormat ++
       numChannels ++ sampleRate ++ byteRate ++ blockAlign ++ bitsPerSample ++
       sub2Id ++ sub2Size)

/-- The 32-bit little-endian value stored at offset `i` of a byte list. -/
def readLE32At (bytes : List Nat) (i : Nat) : Nat :=
  bytes.getD i 0 + 256 * bytes.getD (i + 1) 0 + 2 ^ 16 * bytes.getD (i + 2) 0 +
    2 ^ 24 * bytes.getD (i + 3) 0

/-! ## The BASIC assembler (`ApplesoftAssembler`, quote-aware revision) -/

/-- One step of the global regex match `line.match(/"[^"]*"|\S+/g)` per
fuel unit (the fuel is an upper bound on the number of matcher steps; each
step consumes at least one character, so the line length suffices).  At a
whitespace character neither alternative matches and the scan advances; at a
`"` with a later closing `"` the first alternative matches through that
closing quote; otherwise `\S+` matches the maximal non-whitespace run. -/
def tokenizeAux : Nat → List Char → List (List Char)
  | 0, _ => []
  | _, [] => []
  | fuel + 1, c :: cs =>
    if jsWhitespace c then tokenizeAux fuel cs
    else if c = '"' && cs.any (fun d => d = '"') then
      ('"' :: (cs.takeWhile (fun d => !(d = '"')) ++ ['"'])) ::
        tokenizeAux fuel ((cs.dropWhile (fun d => !(d = '"'))).drop 1)
    else
      (c :: cs).takeWhile (fun d => !jsWhitespace d) ::
        tokenizeAux fuel ((c :: cs).dropWhile (fun d => !jsWhitespace d))

/-- `line.match(/"[^"]*"|\S+/g)`: split by whitespace, keeping any
double-quoted substring as a single atom. -/
def tokenizeLine (line : List Char) : List (List Char) :=
  tokenizeAux line.length line

def isDecDigit (c : Char) : Bool := '0' ≤ c && c ≤ '9'

def isHexLetterLower (c : Char) : Bool := 'a' ≤ c && c ≤ 'f'

def isHexLetterUpper (c : Char) : Bool := 'A' ≤ c && c ≤ 'F'

def isHexDigit (c : Char) : Bool := isDecDigit c || isHexLetterLower c || isHexLetterUpper c

def decDigitVal (c : Char) : Nat := charCode c - 48

def hexDigitVal (c : Char) : Nat :=
  if isDecDigit c then charCode c - 48
  else if isHexLetterLower c then charCode c - 97 + 10
  else charCode c - 65 + 10

/-- The maximal digit run at the head of `s`, as a number; `none` when the
run is empty. -/
def parseDigitRun (digitOk : Char → Bool) (val : Char → Nat) (base : Nat)
    (s : List Char) : Option Nat :=
  let ds := s.takeWhile digitOk
  if ds.isEmpty then none
  else some (ds.foldl (fun acc c => base * acc + val c) 0)

/-- The digits of JS `parseInt(s)` with no radix argument: a `0x`/`0X`
prefix selects radix 16, otherwise the maximal decimal prefix is parsed. -/
def parseUnsignedJS (s : List Char) : Option Nat :=
  match s with
  | c0 :: c1 :: rest =>
    if c0 = '0' && (c1 = 'x' || c1 = 'X') then parseDigitRun isHexDigit hexDigitVal 16 rest
    else parseDigitRun isDecDigit decDigitVal 10 (c0 :: c1 :: rest)
  | t => parseDigitRun isDecDigit decDigitVal 10 t

/-- JS `parseInt(s)` with no radix argument: skip leading whitespace, accept
an optional sign, parse the maximal digit prefix (an empty remainder parses
to `NaN` either way).  `none` models `NaN`. -/
def parseIntJS (s : List Char) : Option Int :=
  match s.dropWhile jsWhitespace with
  | [] => none
  | c :: rest =>
    if c = '-' then (parseUnsignedJS rest).map (fun n => -(n : Int))
    else if c = '+' then (parseUnsignedJS rest).map (fun n => (n : Int))
    else (parseUnsignedJS (c :: rest)).map (fun n => (n : Int))

/-- Modelled from the spec: the assembler and disassembler import
`OpcodeToApplesoftInstructionMap` from `Applesoft.types`, a file that is
absent from the sources (only its importers are present).  §3 of the
specification describes it as "a fixed bijective mapping between AppleSoft
reserved words (e.g. `PRINT`, `GOTO`, `LET`, `REM`, `=`, arithmetic
operators) and single bytes in `0x80..0xFF`", pinning `REM` to `0xB2`.  This
model lists exactly the reserved words the specification names, each with its
standard AppleSoft token byte, in ascending key order — the order
`Object.entries` yields for an object with numeric keys. -/
def OpcodeToApplesoftInstructionMap : List (Nat × List Char) :=
  [ (0xaa, ['L', 'E', 'T']),
    (0xab, ['G', 'O', 'T', 'O']),
    (0xb2, ['R', 'E', 'M']),
    (0xba, ['P', 'R', 'I', 'N', 'T']),
    (0xc8, ['+']),
    (0xc9, ['-']),
    (0xca, ['*']),
    (0xcb, ['/']),
    (0xd0, ['=']) ]

/-- `Object.entries(OpcodeToApplesoftInstructionMap).find(e => e[1] ===
datum)?.[0]`: the byte of the first table entry whose mnemonic is `datum`. -/
def findOpcodeForAtom (datum : List Char) : Option Nat :=
  (OpcodeToApplesoftInstructionMap.find? (fun e => e.2 = datum)).map (fun e => e.1)

/-- `OpcodeToApplesoftInstructionMap[c]`: the mnemonic stored under byte
key `c`. -/
def findMnemonicForByte (b : Nat) : Option (List Char) :=
  (OpcodeToApplesoftInstructionMap.find? (fun e => e.1 = b)).map (fun e => e.2)

/-- `String.prototype.toLowerCase` on the ASCII text in play. -/
def jsToLower (s : List Char) : List Char := s.map Char.toLower

/-- JS `Array.prototype.join(sep)`. -/
def joinSep (sep : List Char) : List (List Char) → List Char
  | [] => []
  | [x] => x
  | x :: y :: rest => x ++ sep ++ joinSep sep (y :: rest)

/-- A two-byte little-endian `Buffer.writeUint16LE` image of an in-range
value. -/
def toLE16 (v : Nat) : List Nat := [v % 256, v / 256 % 256]

/-- `dataStr[0]?.toLowerCase() === "rem"`. -/
def isCommentLine (dataStr : List (List Char)) : Bool :=
  match dataStr.head? with
  | some a => jsToLower a = ['r', 'e', 'm']
  | none => false

/-- The `data` constant of `assembleLine`: a comment line keeps the `REM`
opcode `0xB2`, a space `0x20`, and the space-joined remaining atoms as
character codes; otherwise each atom becomes its opcode byte on a table hit
and its character codes on a miss. -/
def assembleData (dataStr : List (List Char)) : List Nat :=
  if isCommentLine dataStr then
    0xb2 :: 0x20 :: (joinSep [' '] (dataStr.drop 1)).map charCode
  else
    (dataStr.map (fun datum =>
      match findOpcodeForAtom datum with
      | some opcode => [opcode]
      | none => datum.map charCode)).flatten

/-- `lineNumberStr ? parseInt(lineNumberStr) : -1` applied to the first
atom (atoms are never the empty string, the only falsy string). -/
def parsedLineNumberOfParts (parts : List (List Char)) : Option Int :=
  match parts.head? with
  | some s => parseIntJS s
  | none => some (-1)

/-- The guard `lineNumber < 0 || lineNumber >= _MAX_LINE_NUMBER` with
`_MAX_LINE_NUMBER = 63999`; `NaN` (`none`) compares false on both sides. -/
def lineNumberInvalid : Option Int → Bool
  | some v => v < 0 || 63999 ≤ v
  | none => false

/-- The two bytes `writeUint16LE` stores for the line number: a `NaN` value
passes the range check (both comparisons are false) and coerces to zero in
each byte position. -/
def lineNumberBytes : Option Int → List Nat
  | none => [0, 0]
  | some v => toLE16 v.toNat

/-- `ApplesoftAssembler.assembleLine` (the quote-aware revision): tokenize,
parse the line number, reject it iff the guard fires, then emit
`nextInstructionAddress = currentAddress + numBytes + 1` little-endian, the
line number (a `NaN` line number passes Node's `writeUint16LE` range check —
both comparisons are false — and stores as the two bytes `0x00 0x00`), the
data bytes, and the terminating null.  `writeUint16LE` throws when the
address exceeds `0xFFFF`, and `writeUint8` throws when a data byte exceeds
`0xFF`; both surface as `outOfRange`. -/
def assembleLine (currentAddress : Nat) (line : List Char) : Except JsError (List Nat) :=
  let parts := tokenizeLine line
  let lineNumber := parsedLineNumberOfParts parts
  let dataStr := parts.tail
  if lineNumberInvalid lineNumber then .error (.invalidLineNumber lineNumber)
  else
    let data := assembleData dataStr
    let numBytes := 2 + 2 + data.length + 1
    let nextInstructionAddress := currentAddress + numBytes + 1
    if 65535 < nextInstructionAddress then .error .outOfRange
    else if data.any (fun b => 255 < b) then .error .outOfRange
    else
      .ok (toLE16 nextInstructionAddress ++ lineNumberBytes lineNumber ++ data ++ [0])

/-- The `reduce` of `ApplesoftAssembler.assemble`: each line is assembled at
`currentAddress = state.length + _STARTING_ADDRESS` where `state` is the flat
byte vector accumulated so far. -/
def assembleAux : List Nat → List (List Char) → Except JsError (List Nat)
  | state, [] => .ok state
  | state, line :: rest => do
    let newBytes ← assembleLine (state.length + 2048) line
    assembleAux (state ++ newBytes) rest

/-- `ApplesoftAssembler.assemble`: the flat program image, closed by the two
null bytes. -/
def assemble (lines : List (List Char)) : Except JsError (List Nat) :=
  (assembleAux [] lines).map (fun bs => bs ++ [0x00, 0x00])

/-- The `reduce` of `ApplesoftAssembler.assembleMappedToInstruction`: note
that `state` here is the list of per-line byte groups, so the
`state.length + _STARTING_ADDRESS` it feeds to `assembleLine` counts
previously assembled *lines*, not bytes. -/
def assembleMappedAux : List (List Nat) → List (List Char) → Except JsError (List (List Nat))
  | state, [] => .ok state
  | state, line :: rest => do
    let newBytes ← assembleLine (state.length + 2048) line
    assembleMappedAux (state ++ [newBytes]) rest

/-- `ApplesoftAssembler.assembleMappedToInstruction`: per-line byte groups,
closed by the `[0x00, 0x00]` group. -/
def assembleMappedToInstruction (lines : List (List Char)) : Except JsError (List (List Nat)) :=
  (assembleMappedAux [] lines).map (fun gs => gs ++ [[0x00, 0x00]])

/-- Reference grouping of `assemble`'s output (not a source function): the
same per-line byte vectors `assemble` concatenates, with the address
advancing by the bytes actually emitted. -/
def assembleGroupsAux : Nat → List (List Char) → Except JsError (List (List Nat))
  | _, [] => .ok []
  | addr, line :: rest => do
    let bs ← assembleLine addr line
    let gs ← assembleGroupsAux (addr + bs.length) rest
    .ok (bs :: gs)

/-- Reference grouping of `assemble`'s output starting at the load
address 0x0800. -/
def assembleGroups (lines : List (List Char)) : Except JsError (List (List Nat)) :=
  assembleGroupsAux 2048 lines

/-! ## The BASIC disassembler (`ApplesoftDisassembler`) -/

/-- The record `disassembleLine` returns. -/
structure ApplesoftLine where
  nextInstructionAddress : Nat
  line : Nat
  dataBytes : List Nat
  dataString : List Char
  fullInstruction : List Char
  deriving Repr, DecidableEq

/-- One byte of the disassembled body: a table hit becomes
`` ` ${opCode} ` `` (the mnemonic surrounded by single spaces), anything else
becomes `String.fromCharCode(c)`. -/
def decodeDataByte (c : Nat) : List Char :=
  match findMnemonicForByte c with
  | some opCode => ' ' :: opCode ++ [' ']
  | none => [Char.ofNat c]

/-- `String.prototype.replace("  ", " ")`: replaces only the leftmost
occurrence of the double space. -/
def replaceFirstDoubleSpace : List Char → List Char
  | [] => []
  | [c] => [c]
  | c :: d :: rest =>
    if c = ' ' && d = ' ' then ' ' :: rest
    else c :: replaceFirstDoubleSpace (d :: rest)

/-- `String.prototype.trim`. -/
def jsTrim (s : List Char) : List Char :=
  ((s.dropWhile jsWhitespace).reverse.dropWhile jsWhitespace).reverse

/-- Decimal digits of `n`, most significant first; the fuel is an upper bound
on the digit count, and `n + 1` always suffices. -/
def natToDecAux : Nat → Nat → List Char
  | 0, _ => []
  | fuel + 1, n =>
    if n < 10 then [Char.ofNat (48 + n)]
    else natToDecAux fuel (n / 10) ++ [Char.ofNat (48 + n % 10)]

/-- The decimal rendering a JS template literal gives a nonnegative
integer. -/
def natToDec (n : Nat) : List Char := natToDecAux (n + 1) n

/-- `ApplesoftDisassembler.disassembleLine`: the next-instruction address and
line number from offsets 0 and 2, the data bytes from `slice(4, length - 2)`
(dropping the terminating null and the extra byte the encoder's off-by-one
lets the caller slice in), and the data string built byte by byte, with the
first double space collapsed and the ends trimmed. -/
def disassembleLine (bytes : List Nat) : Except JsError ApplesoftLine := do
  let nextInstructionAddress ← readInt16 bytes 0
  let line ← readInt16 bytes 2
  let dataBytes := (bytes.take (bytes.length - 2)).drop 4
  let dataString := jsTrim (replaceFirstDoubleSpace (dataBytes.map decodeDataByte).flatten)
  .ok { nextInstructionAddress, line, dataBytes, dataString,
        fullInstruction := natToDec line ++ ' ' :: dataString }

/-- A JS `Array.prototype.slice` index: negative values count from the end,
and everything clamps into `[0, len]`. -/
def jsClampIndex (len : Nat) (i : Int) : Nat :=
  if i < 0 then ((len : Int) + i).toNat else min i.toNat len

/-- JS `Array.prototype.slice(start, stop)`. -/
def jsSlice (l : List Nat) (start stop : Int) : List Nat :=
  (l.take (jsClampIndex l.length stop)).drop (jsClampIndex l.length start)

/-- The `while` loop of `ApplesoftDisassembler.disassemble`, with the
accumulating array expressed by consing: while `currentAddress - 2048 <
bytes.length`, read the next-instruction address at `idx = currentAddress -
2048`, stop on `address === 0 || instructionLength < 0`, otherwise
disassemble `bytes.slice(idx, idx + instructionLength)` and continue at
`nextInstructionAddress - 1` ("we subtract 1 because of 0 offsets").  The
fuel only makes the recursion structural; `disassemble` supplies more fuel
than the loop can consume, since every iteration that does not stop the loop
advances the address. -/
def disassembleLoop (bytes : List Nat) : Nat → Int → Except JsError (List ApplesoftLine)
  | 0, _ => .error .fuelExhausted
  | fuel + 1, currentAddress =>
    if currentAddress - 2048 < (bytes.length : Int) then do
      let idx := currentAddress - 2048
      let address ← readInt16 bytes idx
      let instructionLength : Int := (address : Int) - currentAddress
      if address = 0 || instructionLength < 0 then .ok []
      else do
        let relevantBytes := jsSlice bytes idx (idx + instructionLength)
        let disassembled ← disassembleLine relevantBytes
        let rest ← disassembleLoop bytes fuel ((disassembled.nextInstructionAddress : Int) - 1)
        .ok (disassembled :: rest)
    else .ok []

/-- `ApplesoftDisassembler.disassemble`: the loop from address 2048. -/
def disassemble (bytes : List Nat) : Except JsError (List ApplesoftLine) :=
  disassembleLoop bytes (bytes.length + 2) 2048

/-- The assemble→disassemble round trip, read back as the `fullInstruction`
of each disassembled line. -/
def roundTrip (lines : List (List Char)) : Except JsError (List (List Char)) := do
  let bytes ← assemble lines
  let disassembled ← disassemble bytes
  .ok (disassembled.map (fun l => l.fullInstruction))

/-- Recognizer for the invalid-line-number throw. -/
def isInvalidLineNumberError {α : Type} : Except JsError α → Bool
  | .error (.invalidLineNumber _) => true
  | _ => false

/-- The chained next-line-address property of a list of per-line byte groups
laid out from `addr`: each group's offset-0 field decodes to one past the end
of the group. -/
def fieldsFrom : Nat → List (List Nat) → Prop
  | _, [] => True
  | addr, g :: rest =>
    readInt16 g 0 = .ok (addr + g.length + 1) ∧ fieldsFrom (addr + g.length) rest

/-! ## Structured well-formed source lines (for the round-trip property) -/

/-- A structured source atom: a plain (unquoted) token, or a quoted string
written with its surrounding quotes. -/
inductive SrcAtom
  | plain (s : List Char)
  | quoted (inner : List Char)
  deriving Repr, DecidableEq

/-- The text of an atom as it appears in the source line. -/
def srcAtomText : SrcAtom → List Char
  | .plain s => s
  | .quoted inner => '"' :: (inner ++ ['"'])

/-- Conditions under which the tokenizer recovers the atom and the assembler
emits one byte per character on a table miss: plain atoms are nonempty ASCII
without whitespace or quotes; quoted atoms have ASCII quote-free interiors. -/
def srcAtomOk : SrcAtom → Bool
  | .plain s => !s.isEmpty && s.all (fun c => c.toNat < 128 && !jsWhitespace c && !(c = '"'))
  | .quoted inner => inner.all (fun c => c.toNat < 128 && !(c = '"'))

/-- Whether the atom's text hits the opcode table. -/
def atomIsOpcode (a : SrcAtom) : Bool := (findOpcodeForAtom (srcAtomText a)).isSome

/-- Adjacent atoms alternate between opcode-table hits and misses. -/
def alternatingOk : List SrcAtom → Bool
  | [] => true
  | [_] => true
  | a :: b :: rest => (atomIsOpcode a != atomIsOpcode b) && alternatingOk (b :: rest)

/-- No two adjacent space characters. -/
def noDoubleSpace : List Char → Bool
  | c :: d :: rest => !(c = ' ' && d = ' ') && noDoubleSpace (d :: rest)
  | _ => true

/-- A structured source line: a line number and its atoms. -/
structure SrcLine where
  num : Nat
  atoms : List SrcAtom
  deriving Repr, DecidableEq

/-- The canonical text of a structured line: the decimal line number and the
atom texts, single-space separated. -/
def lineText (l : SrcLine) : List Char :=
  natToDec l.num ++ ' ' :: joinSep [' '] (l.atoms.map srcAtomText)

/-- Whether the assembler treats the line as a `REM` comment line. -/
def lineIsRem (l : SrcLine) : Bool :=
  match l.atoms.head? with
  | some a => jsToLower (srcAtomText a) = ['r', 'e', 'm']
  | none => false

/-- A well-formed standard (non-REM) line for the round trip: a legal line
number, nonempty ok atoms, alternation between table hits and misses (the
disassembler emits a table hit as ` mnemonic ` and a miss verbatim, so two
adjacent misses lose their separating space and two adjacent hits double it),
no double spaces inside any atom, and a non-`REM` head atom. -/
def wfStdLine (l : SrcLine) : Bool :=
  decide (l.num < 63999) && !l.atoms.isEmpty && l.atoms.all srcAtomOk &&
  alternatingOk l.atoms &&
  l.atoms.all (fun a => noDoubleSpace (srcAtomText a)) &&
  !lineIsRem l

/-- A well-formed REM line: the first atom is exactly `REM` and the rest are
arbitrary ok atoms (the body is emitted and decoded verbatim). -/
def wfRemLine (l : SrcLine) : Bool :=
  decide (l.num < 63999) &&
  (match l.atoms.head? with
   | some a => decide (srcAtomText a = ['R', 'E', 'M'])
   | none => false) &&
  l.atoms.all srcAtomOk

def wfLine (l : SrcLine) : Bool := wfStdLine l || wfRemLine l

/-- The body bytes `assembleLine` emits for a structured line. -/
def lineBody (l : SrcLine) : List Nat :=
  if lineIsRem l then
    0xb2 :: 0x20 :: (joinSep [' '] ((l.atoms.drop 1).map srcAtomText)).map charCode
  else
    ((l.atoms.map srcAtomText).map (fun t =>
      match findOpcodeForAtom t with
      | some opcode => [opcode]
      | none => t.map charCode)).flatten

/-- The byte count of the tokenized line: address, line number, body, null. -/
def lineByteCount (l : SrcLine) : Nat := 5 + (lineBody l).length

/-- The assembled image of one structured line laid out at `addr`. -/
def lineBytes (addr : Nat) (l : SrcLine) : List Nat :=
  toLE16 (addr + lineByteCount l + 1) ++ toLE16 l.num ++ lineBody l ++ [0]

/-- The per-line assembled groups of a structured program from `addr`. -/
def linesBytes : Nat → List SrcLine → List (List Nat)
  | _, [] => []
  | addr, l :: ls => lineBytes addr l :: linesBytes (addr + lineByteCount l) ls

/-- The total assembled byte count of a structured program. -/
def totalByteCount (L : List SrcLine) : Nat := (L.map lineByteCount).sum

/-- The record the disassembler reconstructs for one structured line laid out
at `addr`. -/
def expectedLine (addr : Nat) (l : SrcLine) : ApplesoftLine where
  nextInstructionAddress := addr + lineByteCount l + 1
  line := l.num
  dataBytes := lineBody l
  dataString := joinSep [' '] (l.atoms.map srcAtomText)
  fullInstruction := lineText l

/-- The records the disassembler reconstructs for a structured program. -/
def expectedLines : Nat → List SrcLine → List ApplesoftLine
  | _, [] => []
  | addr, l :: ls => expectedLine addr l :: expectedLines (addr + lineByteCount l) ls

/-- The text a table hit or miss contributes to the disassembled data
string: ` mnemonic ` for a hit, the atom text verbatim for a miss. -/
def pieceText (a : SrcAtom) : List Char :=
  if atomIsOpcode a then ' ' :: (srcAtomText a ++ [' ']) else srcAtomText a

/-- A single space when the flag holds. -/
def padIf (b : Bool) : List Char := if b then [' '] else []

/-- Whether the last atom is an opcode-table hit. -/
def lastIsOpcode (atoms : List SrcAtom) : Bool :=
  match atoms.getLast? with
  | some a => atomIsOpcode a
  | none => false

/-- Splitting a line into its whitespace-separated words (quote-blind), one
matcher step per fuel unit; the line length suffices. -/
def wsWordsAux : Nat → List Char → List (List Char)
  | 0, _ => []
  | _, [] => []
  | fuel + 1, c :: cs =>
    if jsWhitespace c then wsWordsAux fuel cs
    else (c :: cs).takeWhile (fun d => !jsWhitespace d) ::
      wsWordsAux fuel ((c :: cs).dropWhile (fun d => !jsWhitespace d))

/-- Whitespace normalization within a line, as the round-trip claim reads it:
collapse every whitespace run to a single space and trim the ends. -/
def normalizeWhitespace (s : List Char) : List Char :=
  joinSep [' '] (wsWordsAux s.length s)

/-! ## Shared facts about the byte encoding -/

theorem two_pow_mul_lor_eq_add (n : Nat) :
    ∀ a b : Nat, b < 2 ^ n → (2 ^ n * a) ||| b = 2 ^ n * a + b := by
  induction n with
  | zero =>
    intro a b hb
    have hb0 : b = 0 := Nat.lt_one_iff.mp hb
    subst hb0
    simp
  | succ n ih =>
    intro a b hb
    have hdec : Nat.bit (decide (b % 2 = 1)) (b >>> 1) = b :=
      Nat.bit_decide_mod_two_eq_one_shiftRight_one b
    have h2 : 2 ^ (n + 1) * a = Nat.bit false (2 ^ n * a) := by
      simp [Nat.bit_val, pow_succ]
      ring
    have hb2 : b >>> 1 < 2 ^ n := by
      rw [Nat.shiftRight_one]
      have : b < 2 ^ n * 2 := by rw [← pow_succ]; exact hb
      omega
    calc (2 ^ (n + 1) * a) ||| b
        = Nat.bit false (2 ^ n * a) ||| Nat.bit (decide (b % 2 = 1)) (b >>> 1) := by
          rw [← h2, hdec]
      _ = Nat.bit (false || decide (b % 2 = 1)) ((2 ^ n * a) ||| (b >>> 1)) :=
          Nat.lor_bit false (2 ^ n * a) (decide (b % 2 = 1)) (b >>> 1)
      _ = Nat.bit (decide (b % 2 = 1)) (2 ^ n * a + b >>> 1) := by
          rw [Bool.false_or, ih a (b >>> 1) hb2]
      _ = 2 ^ (n + 1) * a + b := by
          have hq : 2 ^ (n + 1) * a = 2 * (2 ^ n * a) := by ring
          rw [Nat.bit_val, Nat.shiftRight_one, hq]
          rcases Nat.mod_two_eq_zero_or_one b with h | h <;>
            simp [h] <;> omega

theorem readInt16_toLE16_append (v : Nat) (rest : List Nat) (hv : v ≤ 65535) :
    readInt16 (toLE16 v ++ rest) 0 = .ok v := by
  have hlen : (toLE16 v ++ rest).length = 2 + rest.length := by
    simp [toLE16]
    omega
  rw [readInt16, if_neg (by rw [hlen]; push_cast; omega)]
  have h0 : jsGet (toLE16 v ++ rest) 0 = v % 256 := rfl
  have h1 : jsGet (toLE16 v ++ rest) (0 + 1) = v / 256 % 256 := rfl
  rw [h0, h1]
  have hdiv : v / 256 % 256 = v / 256 := Nat.mod_eq_of_lt (by omega)
  rw [hdiv, Nat.shiftLeft_eq, mul_comm (v / 256) (2 ^ 8),
    two_pow_mul_lor_eq_add 8 (v / 256) (v % 256) (by omega)]
  congr 1
  omega

theorem lineNumberBytes_length (o : Option Int) : (lineNumberBytes o).length = 2 := by
  cases o <;> simp [lineNumberBytes, toLE16]

theorem assembleLine_ok_elim {addr : Nat} {line : List Char} {bs : List Nat}
    (h : assembleLine addr line = .ok bs) :
    ∃ tail, bs = toLE16 (addr + tail.length + 3) ++ tail ∧ addr + tail.length + 3 ≤ 65535 := by
  simp only [assembleLine] at h
  split at h
  · exact absurd h (by simp)
  · split at h
    · exact absurd h (by simp)
    · split at h
      · exact absurd h (by simp)
      · have hbs := (Except.ok.inj h).symm
        refine ⟨lineNumberBytes (parsedLineNumberOfParts (tokenizeLine line)) ++
                assembleData (tokenizeLine line).tail ++ [0], ?_, ?_⟩
        · rw [hbs]
          have hL := lineNumberBytes_length (parsedLineNumberOfParts (tokenizeLine line))
          have harith :
              addr + (2 + 2 + (assembleData (tokenizeLine line).tail).length + 1) + 1 =
              addr + (lineNumberBytes (parsedLineNumberOfParts (tokenizeLine line)) ++
                assembleData (tokenizeLine line).tail ++ [0]).length + 3 := by
            simp [List.length_append, hL]
            omega
          rw [harith, List.append_assoc, List.append_assoc]
          simp
        · have hle :
              ¬ 65535 < addr + (2 + 2 + (assembleData (tokenizeLine line).tail).length + 1) + 1 := by
            assumption
          have hL := lineNumberBytes_length (parsedLineNumberOfParts (tokenizeLine line))
          simp only [List.length_append, hL, List.length_cons, List.length_nil]
          omega

/-- The next-line-address field of every successfully assembled line decodes
to `currentAddress + numBytes + 1`. -/
theorem assembleLine_field {addr : Nat} {line : List Char} {bs : List Nat}
    (h : assembleLine addr line = .ok bs) :
    readInt16 bs 0 = .ok (addr + bs.length + 1) := by
  obtain ⟨tail, hshape, hle⟩ := assembleLine_ok_elim h
  rw [hshape, readInt16_toLE16_append _ _ hle]
  congr 1

/-! ## Checksum properties (claim C5) -/

/-- C5 counterexample: already at the empty byte vector the claimed identity
`xor_checksum(B ++ [xor_checksum(B)]) = 0xFF` fails — appending the checksum
`0xFF` of `[]` and re-checksumming yields `0x00`, not `0xFF`. -/
theorem computeChecksum_append_self_ne_ff :
    computeChecksum ([] ++ [computeChecksum []]) = 0x00 ∧ (0x00 : Nat) ≠ 0xff := by
  decide

/-- C5 (amended): appending a byte vector's checksum and folding again always
yields `0x00` (the seed cancels), and the boundary cases hold as stated:
`xor_checksum([]) = 0xFF` and `xor_checksum([0xFF]) = 0x00`. -/
theorem computeChecksum_append_self :
    (∀ B : List Nat, computeChecksum (B ++ [computeChecksum B]) = 0x00) ∧
      computeChecksum [] = 0xff ∧ computeChecksum [0xff] = 0x00 := by
  refine ⟨fun B => ?_, by decide, by decide⟩
  simp [computeChecksum, List.foldl_append]

/-! ## Frequency smoothing properties (claim C6) -/

theorem jsAbs_eq_abs (x : ℚ) : jsAbs x = |x| := by
  unfold jsAbs
  split
  · rw [abs_of_neg (by assumption)]
  · rw [abs_of_nonneg (le_of_not_lt (by assumption))]

theorem minByAux_spec (f : ℚ → ℚ) (best : ℚ) (xs : List ℚ) :
    minByAux f best xs ∈ best :: xs ∧ ∀ y ∈ best :: xs, f (minByAux f best xs) ≤ f y := by
  induction xs generalizing best with
  | nil => simp [minByAux]
  | cons x xs ih =>
    rw [minByAux]
    by_cases hcmp : f x < f best
    · rw [if_pos hcmp]
      obtain ⟨hm, hle⟩ := ih x
      refine ⟨List.mem_cons_of_mem best hm, ?_⟩
      intro y hy
      rcases List.mem_cons.mp hy with h | h
      · rw [h]
        exact le_of_lt (lt_of_le_of_lt (hle x (List.mem_cons_self x xs)) hcmp)
      · exact hle y h
    · rw [if_neg hcmp]
      obtain ⟨hm, hle⟩ := ih best
      refine ⟨?_, ?_⟩
      · rcases List.mem_cons.mp hm with h | h
        · rw [h]
          exact List.mem_cons_self _ _
        · exact List.mem_cons_of_mem best (List.mem_cons_of_mem x h)
      · intro y hy
        rcases List.mem_cons.mp hy with h | h
        · rw [h]
          exact hle best (List.mem_cons_self best xs)
        · rcases List.mem_cons.mp h with h' | h'
          · rw [h']
            exact le_trans (hle best (List.mem_cons_self best xs)) (le_of_not_lt hcmp)
          · exact hle y (List.mem_cons_of_mem best h')

/-- C6 counterexample: the specification's known-frequency set contains
1500 Hz, so by the claim an observed 1500 Hz (absolute distance 0 ≤ 250 Hz
from the claimed nearest member) must be returned as 1500 — but the code,
whose known set has no 1500 Hz entry, smooths it to 2000 Hz. -/
theorem getClosestKnownFrequency_at_1500 :
    (1500 : ℚ) ∈ claimedKnownFrequencies ∧ |(1500 : ℚ) - 1500| ≤ 250 ∧
      getClosestKnownFrequency 1500 = 2000 ∧ (2000 : ℚ) ≠ 1500 := by
  refine ⟨by norm_num [claimedKnownFrequencies], by norm_num, ?_, by norm_num⟩
  norm_num [getClosestKnownFrequency, minBy, minByAux, knownFrequencyes, jsAbs,
    maximumFrequencyDivergence]

/-- C6 (amended): for every measured frequency `f` there is a member `m` of
the code's six-element known set {770, 2000, 2500, 1000, 12000, 6000} of
minimal absolute distance to `f` (ties resolving to the earlier entry in that
order), and `getClosestKnownFrequency` returns `m` exactly when the signed
difference `f - m` is at most 250 Hz (in particular always when `f < m`),
and `f` unchanged otherwise. -/
theorem getClosestKnownFrequency_spec (freq : ℚ) :
    ∃ m ∈ knownFrequencyes,
      (∀ k ∈ knownFrequencyes, |m - freq| ≤ |k - freq|) ∧
      getClosestKnownFrequency freq =
        if freq - m ≤ maximumFrequencyDivergence then m else freq := by
  obtain ⟨hm, hle⟩ := minByAux_spec (fun f => jsAbs (f - freq)) 770 [2000, 2500, 1000, 12000, 6000]
  refine ⟨minByAux (fun f => jsAbs (f - freq)) 770 [2000, 2500, 1000, 12000, 6000], hm, ?_, ?_⟩
  · intro k hk
    have := hle k hk
    simpa [jsAbs_eq_abs] using this
  · have hval : getClosestKnownFrequency freq =
        if maximumFrequencyDivergence <
            freq - minByAux (fun f => jsAbs (f - freq)) 770 [2000, 2500, 1000, 12000, 6000]
        then freq
        else minByAux (fun f => jsAbs (f - freq)) 770 [2000, 2500, 1000, 12000, 6000] := rfl
    rw [hval]
    rcases le_or_lt (freq - minByAux (fun f => jsAbs (f - freq)) 770 [2000, 2500, 1000, 12000, 6000])
        maximumFrequencyDivergence with h | h
    · rw [if_neg (not_lt.mpr h), if_pos h]
    · rw [if_pos h, if_neg (not_le.mpr h)]

/-! ## WAVE header properties (claim C8) -/

/-- C8: the generator writes the 4-byte little-endian field at offset 28 of
every header as `_SAMPLE_RATE * _BITS_PER_SAMPLE * _BYTES_PER_SAMPLE`
= 48000 × 8 × 1 = 384000 — the division by 8 required for a byte rate (and
present in the specification's formula, which evaluates to 48000) is missing
from the code. -/
theorem getHeader_byte_rate_field :
    (getHeader 0).map (fun h => readLE32At h 28) = .ok 384000 ∧
      (getHeader 1000).map (fun h => readLE32At h 28) = .ok 384000 ∧
      waveSampleRate * waveBitsPerSample * waveBytesPerSample = 384000 ∧
      waveSampleRate * 8 * 1 / 8 = 48000 ∧ (384000 : Nat) ≠ 48000 := by
  decide

/-! ## Next-line-address conventions (claims C3, C7) -/

theorem bind_ok_eq {ε α β : Type} (a : α) (f : α → Except ε β) :
    (Except.ok a >>= f) = f a := rfl

theorem bind_error_eq {ε α β : Type} (e : ε) (f : α → Except ε β) :
    ((Except.error e : Except ε α) >>= f) = Except.error e := rfl

/-- C3: the assembler writes the 16-bit next-line-address field at offset 0
of every assembled line as `currentAddress + numBytes + 1` (one past the end
of the line), and the disassembler's loop, after parsing a line, continues at
that line's echoed next-instruction address minus 1, undoing the overshoot. -/
theorem next_address_written_and_undone :
    (∀ (addr : Nat) (line : List Char) (bs : List Nat), assembleLine addr line = .ok bs →
      readInt16 bs 0 = .ok (addr + bs.length + 1)) ∧
    (∀ (bytes : List Nat) (fuel : Nat) (currentAddress : Int) (dl : ApplesoftLine)
        (rest : List ApplesoftLine),
      disassembleLoop bytes (fuel + 1) currentAddress = .ok (dl :: rest) →
      disassembleLoop bytes fuel ((dl.nextInstructionAddress : Int) - 1) = .ok rest) := by
  constructor
  · intro addr line bs h
    exact assembleLine_field h
  · intro bytes fuel currentAddress dl rest h
    simp only [disassembleLoop] at h
    split at h
    · cases haddr : readInt16 bytes (currentAddress - 2048) with
      | error e =>
        rw [haddr, bind_error_eq] at h
        exact absurd h (by simp)
      | ok address =>
        rw [haddr, bind_ok_eq] at h
        split at h
        · exact absurd h (by simp)
        · cases hdl : disassembleLine (jsSlice bytes (currentAddress - 2048)
              (currentAddress - 2048 + ((address : Int) - currentAddress))) with
          | error e =>
            rw [hdl, bind_error_eq] at h
            exact absurd h (by simp)
          | ok d =>
            rw [hdl, bind_ok_eq] at h
            cases hrest : disassembleLoop bytes fuel ((d.nextInstructionAddress : Int) - 1) with
            | error e =>
              rw [hrest, bind_error_eq] at h
              exact absurd h (by simp)
            | ok r =>
              rw [hrest, bind_ok_eq] at h
              have hinj := Except.ok.inj h
              have hd : d = dl := (List.cons.inj hinj).1
              have hr : r = rest := (List.cons.inj hinj).2
              rw [← hd, ← hr]
              exact hrest
    · exact absurd h (by simp)

/-- C7 counterexample: for the single line `0 A`, whose assembled form is six
bytes long, the first next-line-address field in `assemble`'s output decodes
to 2055 = 0x0800 + 6 + 1 — not 0x0800 + 6 = 2054 as the claim's first
conjunct states. -/
theorem c7_first_field_off_by_one :
    assemble [['0', ' ', 'A']] = .ok [7, 8, 0, 0, 65, 0, 0, 0] ∧
    (assembleLine 2048 ['0', ' ', 'A']).map List.length = .ok 6 ∧
    readInt16 [7, 8, 0, 0, 65, 0, 0, 0] 0 = .ok 2055 ∧
    2055 ≠ 2048 + 6 := by
  refine ⟨by decide, by decide, by decide, by decide⟩

theorem assembleGroupsAux_fieldsFrom :
    ∀ (lines : List (List Char)) (addr : Nat) (gs : List (List Nat)),
      assembleGroupsAux addr lines = .ok gs → fieldsFrom addr gs := by
  intro lines
  induction lines with
  | nil =>
    intro addr gs h
    rw [assembleGroupsAux] at h
    rw [← Except.ok.inj h]
    trivial
  | cons line rest ih =>
    intro addr gs h
    rw [assembleGroupsAux] at h
    cases hline : assembleLine addr line with
    | error e =>
      rw [hline, bind_error_eq] at h
      exact absurd h (by simp)
    | ok bs =>
      rw [hline, bind_ok_eq] at h
      cases hrest : assembleGroupsAux (addr + bs.length) rest with
      | error e =>
        rw [hrest, bind_error_eq] at h
        exact absurd h (by simp)
      | ok gs2 =>
        rw [hrest, bind_ok_eq] at h
        rw [← Except.ok.inj h]
        exact ⟨assembleLine_field hline, ih _ _ hrest⟩

theorem fieldsFrom_consecutive :
    ∀ (gs : List (List Nat)) (addr : Nat), fieldsFrom addr gs →
      ∀ i gi gj, gs[i]? = some gi → gs[i + 1]? = some gj →
        ∀ vi, readInt16 gi 0 = .ok vi → readInt16 gj 0 = .ok (vi + gj.length) := by
  intro gs
  induction gs with
  | nil =>
    intro addr h i gi gj hgi
    simp at hgi
  | cons g rest ih =>
    intro addr h i gi gj hgi hgj vi hvi
    obtain ⟨hg, hrest⟩ := h
    cases i with
    | zero =>
      have hgi0 : g = gi := by simpa using hgi
      subst hgi0
      cases rest with
      | nil => simp at hgj
      | cons g2 rest2 =>
        have hgj0 : g2 = gj := by simpa using hgj
        subst hgj0
        obtain ⟨hg2, _⟩ := hrest
        have hvi2 : vi = addr + g.length + 1 := by
          rw [hvi] at hg
          exact Except.ok.inj hg
        rw [hg2, hvi2]
        congr 1
        omega
    | succ i2 =>
      exact ih (addr + g.length) hrest i2 gi gj (by simpa using hgi) (by simpa using hgj) vi hvi

theorem assembleAux_eq_groups :
    ∀ (lines : List (List Char)) (state : List Nat),
      assembleAux state lines =
        (assembleGroupsAux (state.length + 2048) lines).map (fun gs => state ++ gs.flatten) := by
  intro lines
  induction lines with
  | nil =>
    intro state
    simp [assembleAux, assembleGroupsAux, Except.map]
  | cons line rest ih =>
    intro state
    rw [assembleAux, assembleGroupsAux]
    cases hline : assembleLine (state.length + 2048) line with
    | error e => rfl
    | ok bs =>
      rw [bind_ok_eq, bind_ok_eq, ih (state ++ bs)]
      have haddr : (state ++ bs).length + 2048 = state.length + 2048 + bs.length := by
        simp [List.length_append]
        omega
      rw [haddr]
      cases hrest : assembleGroupsAux (state.length + 2048 + bs.length) rest with
      | error e => rfl
      | ok gs =>
        rw [bind_ok_eq]
        simp [Except.map, List.append_assoc]

/-- C7 (amended): in `assemble`'s output, grouped per line, the first line's
next-line-address field equals `0x0800 + len(first line) + 1` (the assembler's
off-by-one included), and each subsequent line's field equals the previous
line's field plus the current line's byte length, exactly as the claim's
second conjunct states. -/
theorem c7_next_line_address_chain (lines : List (List Char)) (bs : List Nat)
    (h : assemble lines = .ok bs) :
    ∃ gs : List (List Nat), bs = gs.flatten ++ [0, 0] ∧
      (∀ g0, gs.head? = some g0 → readInt16 g0 0 = .ok (2048 + g0.length + 1)) ∧
      (∀ i gi gj vi, gs[i]? = some gi → gs[i + 1]? = some gj →
        readInt16 gi 0 = .ok vi → readInt16 gj 0 = .ok (vi + gj.length)) := by
  rw [assemble, assembleAux_eq_groups lines []] at h
  cases hgs : assembleGroupsAux (List.length ([] : List Nat) + 2048) lines with
  | error e =>
    rw [hgs] at h
    exact absurd h (by simp [Except.map])
  | ok gs =>
    rw [hgs] at h
    simp only [Except.map, List.nil_append] at h
    have hff : fieldsFrom 2048 gs := by
      have := assembleGroupsAux_fieldsFrom lines (List.length ([] : List Nat) + 2048) gs hgs
      simpa using this
    refine ⟨gs, (Except.ok.inj h).symm, ?_,
      fun i gi gj vi hgi hgj hvi => fieldsFrom_consecutive gs 2048 hff i gi gj hgi hgj vi hvi⟩
    intro g0 hg0
    cases gs with
    | nil => simp at hg0
    | cons g rest =>
      have hgg : g = g0 := by simpa using hg0
      subst hgg
      exact hff.1

/-- C7 witness: the two-line program `0 A` / `1 B` satisfies the next-line
address chain. -/
theorem c7_next_line_address_chain_witness :
    assemble [['0', ' ', 'A'], ['1', ' ', 'B']] =
      .ok [7, 8, 0, 0, 65, 0, 13, 8, 1, 0, 66, 0, 0, 0] ∧
    (∃ gs : List (List Nat),
      ([7, 8, 0, 0, 65, 0, 13, 8, 1, 0, 66, 0, 0, 0] : List Nat) = gs.flatten ++ [0, 0] ∧
      (∀ g0, gs.head? = some g0 → readInt16 g0 0 = .ok (2048 + g0.length + 1)) ∧
      (∀ i gi gj vi, gs[i]? = some gi → gs[i + 1]? = some gj →
        readInt16 gi 0 = .ok vi → readInt16 gj 0 = .ok (vi + gj.length))) :=
  ⟨by decide, c7_next_line_address_chain [['0', ' ', 'A'], ['1', ' ', 'B']] _ (by decide)⟩

/-! ## The per-line assembler variant (claim C4) -/

/-- C4: flattening `assembleMappedToInstruction`'s groups does not reproduce
`assemble`'s byte vector.  The mapped variant computes `currentAddress` from
`state.length`, which counts previously assembled line groups rather than
bytes, so from the second line on the next-line-address fields differ: for
`0 A` / `1 B` the flat program carries 2061 = 0x080D where the mapped
variant carries 2056 = 0x0808. -/
theorem assembleMapped_flatten_ne_assemble :
    assemble [['0', ' ', 'A'], ['1', ' ', 'B']] =
      .ok [7, 8, 0, 0, 65, 0, 13, 8, 1, 0, 66, 0, 0, 0] ∧
    (assembleMappedToInstruction [['0', ' ', 'A'], ['1', ' ', 'B']]).map
        (fun gs => gs.flatten) =
      .ok [7, 8, 0, 0, 65, 0, 8, 8, 1, 0, 66, 0, 0, 0] ∧
    ([7, 8, 0, 0, 65, 0, 8, 8, 1, 0, 66, 0, 0, 0] : List Nat) ≠
      [7, 8, 0, 0, 65, 0, 13, 8, 1, 0, 66, 0, 0, 0] := by
  refine ⟨by decide, by decide, by decide⟩

/-! ## Line-number validation (claims C9, C10) -/

/-- C9: `assembleLine` raises the invalid-line-number error exactly for lines
whose parsed line number (a missing first atom parses as −1; an unparseable
one as NaN) is below 0 or at least 63999; in particular line numbers −1 and
63999 are rejected while 0 and 63998 are accepted. -/
theorem invalid_line_number_iff :
    (∀ (addr : Nat) (line : List Char),
      isInvalidLineNumberError (assembleLine addr line) = true ↔
        ∃ v, parsedLineNumberOfParts (tokenizeLine line) = some v ∧ (v < 0 ∨ 63999 ≤ v)) ∧
    isInvalidLineNumberError (assembleLine 2048 ['-', '1', ' ', 'A']) = true ∧
    isInvalidLineNumberError (assembleLine 2048 ['6', '3', '9', '9', '9', ' ', 'A']) = true ∧
    assembleLine 2048 ['0', ' ', 'A'] = .ok [7, 8, 0, 0, 65, 0] ∧
    assembleLine 2048 ['6', '3', '9', '9', '8', ' ', 'A'] = .ok [7, 8, 254, 249, 65, 0] := by
  refine ⟨?_, by decide, by decide, by decide, by decide⟩
  intro addr line
  have hguard : lineNumberInvalid (parsedLineNumberOfParts (tokenizeLine line)) = true ↔
      ∃ v, parsedLineNumberOfParts (tokenizeLine line) = some v ∧ (v < 0 ∨ 63999 ≤ v) := by
    cases hp : parsedLineNumberOfParts (tokenizeLine line) with
    | none => simp [lineNumberInvalid]
    | some v =>
      simp only [lineNumberInvalid, Option.some.injEq, Bool.or_eq_true, decide_eq_true_eq]
      constructor
      · intro hv
        exact ⟨v, rfl, hv⟩
      · rintro ⟨w, hw, hcase⟩
        rw [hw]
        exact hcase
  rw [← hguard]
  by_cases hbad : lineNumberInvalid (parsedLineNumberOfParts (tokenizeLine line)) = true
  · simp [assembleLine, hbad, isInvalidLineNumberError]
  · have hbad2 : lineNumberInvalid (parsedLineNumberOfParts (tokenizeLine line)) = false := by
      simpa using hbad
    have hfalse : isInvalidLineNumberError (assembleLine addr line) = false := by
      simp only [assembleLine, hbad2, Bool.false_eq_true, if_false]
      split
      · rfl
      · split
        · rfl
        · rfl
    rw [hfalse, hbad2]

/-- C10: a present but unparseable first atom makes `parseInt` yield NaN;
both range guards compare false, so no invalid-line-number error is raised,
the line assembles (all data bytes fitting a byte and the program fitting
below 0xFFFF), and the emitted 16-bit line-number field is zero — the bytes
at offsets 2 and 3 are `0x00 0x00`. -/
theorem nan_line_number_assembles (addr : Nat) (line : List Char) (a : List Char)
    (hhead : (tokenizeLine line).head? = some a)
    (hnan : parseIntJS a = none)
    (hdata : ∀ b ∈ assembleData (tokenizeLine line).tail, b ≤ 255)
    (haddr : addr + (assembleData (tokenizeLine line).tail).length + 6 ≤ 65535) :
    lineNumberInvalid (parsedLineNumberOfParts (tokenizeLine line)) = false ∧
    assembleLine addr line =
      .ok (toLE16 (addr + (assembleData (tokenizeLine line).tail).length + 6) ++
        ([0, 0] ++ (assembleData (tokenizeLine line).tail ++ [0]))) := by
  have hparsed : parsedLineNumberOfParts (tokenizeLine line) = none := by
    simp [parsedLineNumberOfParts, hhead, hnan]
  have hinvalid : lineNumberInvalid (parsedLineNumberOfParts (tokenizeLine line)) = false := by
    rw [hparsed]
    rfl
  refine ⟨hinvalid, ?_⟩
  simp only [assembleLine, hinvalid, Bool.false_eq_true, if_false]
  rw [if_neg (by omega), if_neg ?hany]
  case hany =>
    rw [List.any_eq_true]
    rintro ⟨b, hb, hgt⟩
    have := hdata b hb
    simp at hgt
    omega
  rw [hparsed]
  simp only [lineNumberBytes, List.append_assoc]
  congr 3
  omega

/-- C10 witness: the line `abc X`, whose first atom parses as NaN, assembles
with a zero line-number field. -/
theorem nan_line_number_assembles_witness :
    (tokenizeLine ['a', 'b', 'c', ' ', 'X']).head? = some ['a', 'b', 'c'] ∧
    parseIntJS ['a', 'b', 'c'] = none ∧
    (lineNumberInvalid (parsedLineNumberOfParts (tokenizeLine ['a', 'b', 'c', ' ', 'X'])) = false ∧
      assembleLine 2048 ['a', 'b', 'c', ' ', 'X'] =
        .ok (toLE16 (2048 + (assembleData (tokenizeLine ['a', 'b', 'c', ' ', 'X']).tail).length + 6) ++
          ([0, 0] ++ (assembleData (tokenizeLine ['a', 'b', 'c', ' ', 'X']).tail ++ [0])))) :=
  ⟨by decide, by decide,
    nan_line_number_assembles 2048 ['a', 'b', 'c', ' ', 'X'] ['a', 'b', 'c']
      (by decide) (by decide) (by decide) (by decide)⟩

end SoftScript

namespace SoftScript

theorem dropWhile_length_le {p : Char → Bool} :
    ∀ l : List Char, (l.dropWhile p).length ≤ l.length := by
  intro l
  induction l with
  | nil => simp
  | cons c cs ih =>
    rw [List.dropWhile_cons]
    split
    · exact le_trans ih (by simp)
    · simp

theorem takeWhile_append_all {p : Char → Bool} :
    ∀ (t rest : List Char), (∀ c ∈ t, p c = true) →
      (∀ c, rest.head? = some c → p c = false) →
      (t ++ rest).takeWhile p = t ∧ (t ++ rest).dropWhile p = rest := by
  intro t
  induction t with
  | nil =>
    intro rest _ hrest
    cases rest with
    | nil => exact ⟨rfl, rfl⟩
    | cons c r =>
      have hc : p c = false := hrest c rfl
      constructor
      · simp [List.takeWhile_cons, hc]
      · simp [List.dropWhile_cons, hc]
  | cons c cs ih =>
    intro rest hall hrest
    have hc : p c = true := hall c (List.mem_cons_self c cs)
    obtain ⟨h1, h2⟩ := ih rest (fun d hd => hall d (List.mem_cons_of_mem c hd)) hrest
    constructor
    · simp [List.takeWhile_cons, hc, h1]
    · simp [List.dropWhile_cons, hc, h2]

theorem tokenizeAux_congr :
    ∀ (fuel : Nat) (cs : List Char) (fuel2 : Nat), cs.length ≤ fuel → cs.length ≤ fuel2 →
      tokenizeAux fuel cs = tokenizeAux fuel2 cs := by
  intro fuel
  induction fuel with
  | zero =>
    intro cs fuel2 h1 _
    have hnil : cs = [] := List.eq_nil_of_length_eq_zero (Nat.le_zero.mp h1)
    subst hnil
    cases fuel2 <;> rfl
  | succ fuel ih =>
    intro cs fuel2 h1 h2
    cases cs with
    | nil => cases fuel2 <;> rfl
    | cons c cs2 =>
      cases fuel2 with
      | zero => simp at h2
      | succ fuel3 =>
        rw [tokenizeAux, tokenizeAux]
        have hlen : cs2.length ≤ fuel := by simpa using h1
        have hlen3 : cs2.length ≤ fuel3 := by simpa using h2
        by_cases hws : jsWhitespace c = true
        · rw [if_pos hws, if_pos hws]
          exact ih cs2 fuel3 hlen hlen3
        · rw [if_neg hws, if_neg hws]
          by_cases hq : (c = '"' && cs2.any (fun d => d = '"')) = true
          · rw [if_pos hq, if_pos hq]
            have hrest : ((cs2.dropWhile (fun d => !(d = '"'))).drop 1).length ≤ cs2.length := by
              have := dropWhile_length_le (p := fun d => !(d = '"')) cs2
              simp only [List.length_drop]
              omega
            rw [ih _ fuel3 (le_trans hrest hlen) (le_trans hrest hlen3)]
          · rw [if_neg hq, if_neg hq]
            have hdrop : ((c :: cs2).dropWhile (fun d => !jsWhitespace d)) =
                cs2.dropWhile (fun d => !jsWhitespace d) := by
              rw [List.dropWhile_cons]
              simp [hws]
            have hrest : (cs2.dropWhile (fun d => !jsWhitespace d)).length ≤ cs2.length :=
              dropWhile_length_le cs2
            rw [hdrop, ih _ fuel3 (le_trans hrest hlen) (le_trans hrest hlen3)]

theorem tokenizeLine_cons_ws (c : Char) (cs : List Char) (h : jsWhitespace c = true) :
    tokenizeLine (c :: cs) = tokenizeLine cs := by
  rw [tokenizeLine, tokenizeLine]
  show tokenizeAux (cs.length + 1) (c :: cs) = tokenizeAux cs.length cs
  rw [tokenizeAux, if_pos h]

theorem tokenizeLine_plain (t rest : List Char) (hne : t ≠ [])
    (hall : ∀ c ∈ t, jsWhitespace c = false ∧ c ≠ '"')
    (hrest : ∀ c, rest.head? = some c → jsWhitespace c = true) :
    tokenizeLine (t ++ rest) = t :: tokenizeLine rest := by
  cases t with
  | nil => exact absurd rfl hne
  | cons c t2 =>
    obtain ⟨htake, hdrop⟩ := takeWhile_append_all (p := fun d => !jsWhitespace d) (c :: t2) rest
      (fun d hd => by simp [(hall d hd).1])
      (fun d hd => by simp [hrest d hd])
    have htake2 : (c :: (t2 ++ rest)).takeWhile (fun d => !jsWhitespace d) = c :: t2 := htake
    have hdrop2 : (c :: (t2 ++ rest)).dropWhile (fun d => !jsWhitespace d) = rest := hdrop
    rw [tokenizeLine]
    show tokenizeAux ((t2 ++ rest).length + 1) (c :: (t2 ++ rest)) = _
    rw [tokenizeAux]
    rw [if_neg (by simp [(hall c (List.mem_cons_self c t2)).1])]
    rw [if_neg (by simp [(hall c (List.mem_cons_self c t2)).2])]
    rw [htake2, hdrop2]
    rw [tokenizeAux_congr _ rest rest.length (by simp) le_rfl]
    rfl

theorem tokenizeLine_quoted (inner rest : List Char)
    (hinner : ∀ c ∈ inner, c ≠ '"') :
    tokenizeLine ('"' :: (inner ++ ['"'] ++ rest)) =
      ('"' :: (inner ++ ['"'])) :: tokenizeLine rest := by
  obtain ⟨htake, hdrop⟩ := takeWhile_append_all (p := fun d => !(d = '"')) inner ('"' :: rest)
    (fun d hd => by simp [hinner d hd])
    (fun d hd => by
      have hd2 : d = '"' := by
        simp at hd
        exact hd.symm
      simp [hd2])
  have htake2 : (inner ++ ['"'] ++ rest).takeWhile (fun d => !(d = '"')) = inner := by
    rw [List.append_assoc]
    exact htake
  have hdrop2 : (inner ++ ['"'] ++ rest).dropWhile (fun d => !(d = '"')) = '"' :: rest := by
    rw [List.append_assoc]
    exact hdrop
  rw [tokenizeLine]
  show tokenizeAux ((inner ++ ['"'] ++ rest).length + 1) ('"' :: (inner ++ ['"'] ++ rest)) = _
  rw [tokenizeAux]
  rw [if_neg (by decide)]
  rw [if_pos ?hq]
  case hq =>
    rw [Bool.and_eq_true]
    constructor
    · decide
    · rw [List.any_eq_true]
      exact ⟨'"', by simp, by decide⟩
  rw [htake2, hdrop2]
  show ('"' :: (inner ++ ['"'])) :: tokenizeAux ((inner ++ ['"'] ++ rest).length) rest =
    ('"' :: (inner ++ ['"'])) :: tokenizeLine rest
  rw [tokenizeAux_congr _ rest rest.length (by simp; omega) le_rfl]
  rfl

theorem srcAtomOk_plain_parts {s : List Char} (h : srcAtomOk (.plain s) = true) :
    s ≠ [] ∧ ∀ c ∈ s, c.toNat < 128 ∧ jsWhitespace c = false ∧ c ≠ '"' := by
  rw [srcAtomOk] at h
  rw [Bool.and_eq_true] at h
  obtain ⟨h1, h2⟩ := h
  constructor
  · intro hnil
    rw [hnil] at h1
    simp at h1
  · intro c hc
    have := List.all_eq_true.mp h2 c hc
    simp at this
    exact ⟨this.1.1, this.1.2, this.2⟩

theorem srcAtomOk_quoted_parts {inner : List Char} (h : srcAtomOk (.quoted inner) = true) :
    ∀ c ∈ inner, c.toNat < 128 ∧ c ≠ '"' := by
  rw [srcAtomOk] at h
  intro c hc
  have := List.all_eq_true.mp h c hc
  simp at this
  exact this

theorem tokenizeLine_atom (a : SrcAtom) (ha : srcAtomOk a = true) (rest : List Char)
    (hrest : ∀ c, rest.head? = some c → jsWhitespace c = true) :
    tokenizeLine (srcAtomText a ++ rest) = srcAtomText a :: tokenizeLine rest := by
  cases a with
  | plain s =>
    obtain ⟨hne, hall⟩ := srcAtomOk_plain_parts ha
    exact tokenizeLine_plain s rest hne (fun c hc => ⟨(hall c hc).2.1, (hall c hc).2.2⟩) hrest
  | quoted inner =>
    have h := tokenizeLine_quoted inner rest (fun c hc => (srcAtomOk_quoted_parts ha c hc).2)
    have hform : srcAtomText (.quoted inner) ++ rest = '"' :: (inner ++ ['"'] ++ rest) := by
      rw [srcAtomText]
      simp [List.append_assoc]
    rw [hform, h]
    rfl

theorem tokenizeLine_joinSep :
    ∀ (atoms : List SrcAtom), (∀ a ∈ atoms, srcAtomOk a = true) →
      tokenizeLine (joinSep [' '] (atoms.map srcAtomText)) = atoms.map srcAtomText := by
  intro atoms
  induction atoms with
  | nil => intro _; rfl
  | cons a rest ih =>
    intro h
    cases rest with
    | nil =>
      show tokenizeLine (srcAtomText a) = [srcAtomText a]
      have := tokenizeLine_atom a (h a (List.mem_cons_self a [])) []
        (fun c hc => by simp at hc)
      simpa using this
    | cons b rest2 =>
      show tokenizeLine (srcAtomText a ++ [' '] ++
        joinSep [' '] ((b :: rest2).map srcAtomText)) = _
      rw [List.append_assoc]
      rw [tokenizeLine_atom a (h a (List.mem_cons_self a (b :: rest2))) _
        (fun c hc => by
          have hc2 : c = ' ' := by
            simp at hc
            exact hc.symm
          rw [hc2]
          decide)]
      have hws : tokenizeLine ([' '] ++ joinSep [' '] ((b :: rest2).map srcAtomText)) =
          tokenizeLine (joinSep [' '] ((b :: rest2).map srcAtomText)) :=
        tokenizeLine_cons_ws ' ' _ (by decide)
      rw [hws, ih (fun x hx => h x (List.mem_cons_of_mem a hx))]
      rfl

end SoftScript

namespace SoftScript

theorem digitChar_facts (m : Nat) (h : m < 10) :
    isDecDigit (Char.ofNat (48 + m)) = true ∧ jsWhitespace (Char.ofNat (48 + m)) = false ∧
    decDigitVal (Char.ofNat (48 + m)) = m ∧ (Char.ofNat (48 + m)).toNat < 128 ∧
    Char.ofNat (48 + m) ≠ '"' ∧ Char.ofNat (48 + m) ≠ '-' ∧ Char.ofNat (48 + m) ≠ '+' ∧
    Char.ofNat (48 + m) ≠ 'x' ∧ Char.ofNat (48 + m) ≠ 'X' := by
  interval_cases m <;> decide

theorem natToDecAux_chars (fuel : Nat) :
    ∀ n c, c ∈ natToDecAux fuel n → ∃ m, m < 10 ∧ c = Char.ofNat (48 + m) := by
  induction fuel with
  | zero =>
    intro n c hc
    simp [natToDecAux] at hc
  | succ fuel ih =>
    intro n c hc
    rw [natToDecAux] at hc
    split at hc
    · simp at hc
      exact ⟨n, by assumption, hc⟩
    · rw [List.mem_append] at hc
      rcases hc with hc | hc
      · exact ih _ c hc
      · simp at hc
        exact ⟨n % 10, Nat.mod_lt _ (by norm_num), hc⟩

theorem natToDec_chars (n : Nat) :
    ∀ c ∈ natToDec n, ∃ m, m < 10 ∧ c = Char.ofNat (48 + m) := by
  intro c hc
  exact natToDecAux_chars (n + 1) n c hc

theorem natToDec_ne_nil (n : Nat) : natToDec n ≠ [] := by
  rw [natToDec, natToDecAux]
  split
  · simp
  · simp

theorem natToDecAux_foldl :
    ∀ (fuel n : Nat), n < fuel →
      (natToDecAux fuel n).foldl (fun acc c => 10 * acc + decDigitVal c) 0 = n := by
  intro fuel
  induction fuel with
  | zero =>
    intro n hn
    exact absurd hn (by omega)
  | succ fuel ih =>
    intro n hn
    rw [natToDecAux]
    by_cases h10 : n < 10
    · rw [if_pos h10]
      simp [List.foldl, (digitChar_facts n h10).2.2.1]
    · rw [if_neg h10]
      rw [List.foldl_append]
      have hdiv : n / 10 < fuel := by omega
      rw [ih (n / 10) hdiv]
      have hm : n % 10 < 10 := Nat.mod_lt _ (by norm_num)
      simp [List.foldl, (digitChar_facts (n % 10) hm).2.2.1]
      omega

theorem takeWhile_of_all {p : Char → Bool} :
    ∀ (t : List Char), (∀ c ∈ t, p c = true) → t.takeWhile p = t := by
  intro t
  induction t with
  | nil => intro _; rfl
  | cons c cs ih =>
    intro h
    rw [List.takeWhile_cons, if_pos (h c (List.mem_cons_self c cs))]
    rw [ih (fun d hd => h d (List.mem_cons_of_mem c hd))]

theorem parseDigitRun_natToDec (n : Nat) :
    parseDigitRun isDecDigit decDigitVal 10 (natToDec n) = some n := by
  rw [parseDigitRun]
  have hall : ∀ c ∈ natToDec n, isDecDigit c = true := by
    intro c hc
    obtain ⟨m, hm, rfl⟩ := natToDec_chars n c hc
    exact (digitChar_facts m hm).1
  rw [takeWhile_of_all (natToDec n) hall]
  rw [if_neg (by simp [natToDec_ne_nil n])]
  have hfold : (natToDec n).foldl (fun acc c => 10 * acc + decDigitVal c) 0 = n :=
    natToDecAux_foldl (n + 1) n (by omega)
  rw [hfold]

theorem parseUnsignedJS_natToDec (n : Nat) : parseUnsignedJS (natToDec n) = some n := by
  cases hstr : natToDec n with
  | nil => exact absurd hstr (natToDec_ne_nil n)
  | cons d ds =>
    cases ds with
    | nil =>
      have hred : parseUnsignedJS [d] = parseDigitRun isDecDigit decDigitVal 10 [d] := rfl
      rw [hred, ← hstr, parseDigitRun_natToDec]
    | cons e ds2 =>
      have he : ∃ m, m < 10 ∧ e = Char.ofNat (48 + m) :=
        natToDec_chars n e (by rw [hstr]; exact List.mem_cons_of_mem d (List.mem_cons_self e ds2))
      rw [parseUnsignedJS]
      rw [if_neg ?hguard]
      case hguard =>
        obtain ⟨m, hm, rfl⟩ := he
        simp [(digitChar_facts m hm).2.2.2.2.2.2.2.1, (digitChar_facts m hm).2.2.2.2.2.2.2.2]
      rw [← hstr, parseDigitRun_natToDec]

theorem parseIntJS_natToDec (n : Nat) : parseIntJS (natToDec n) = some (n : Int) := by
  cases hstr : natToDec n with
  | nil => exact absurd hstr (natToDec_ne_nil n)
  | cons d ds =>
    obtain ⟨m, hm, hd⟩ := natToDec_chars n d (by rw [hstr]; exact List.mem_cons_self d ds)
    have hdrop : (d :: ds).dropWhile jsWhitespace = d :: ds := by
      rw [List.dropWhile_cons]
      rw [hd]
      simp [(digitChar_facts m hm).2.1]
    rw [parseIntJS, hdrop]
    show (if d = '-' then (parseUnsignedJS ds).map (fun k => -(k : Int))
      else if d = '+' then (parseUnsignedJS ds).map (fun k => (k : Int))
      else (parseUnsignedJS (d :: ds)).map (fun k => (k : Int))) = some (n : Int)
    rw [if_neg (by rw [hd]; exact (digitChar_facts m hm).2.2.2.2.2.1)]
    rw [if_neg (by rw [hd]; exact (digitChar_facts m hm).2.2.2.2.2.2.1)]
    rw [← hstr, parseUnsignedJS_natToDec]
    rfl

end SoftScript

namespace SoftScript

theorem tokenizeLine_lineText (l : SrcLine)
    (h : ∀ a ∈ l.atoms, srcAtomOk a = true) :
    tokenizeLine (lineText l) = natToDec l.num :: l.atoms.map srcAtomText := by
  rw [lineText]
  have hnum : ∀ c ∈ natToDec l.num, jsWhitespace c = false ∧ c ≠ '"' := by
    intro c hc
    obtain ⟨m, hm, rfl⟩ := natToDec_chars l.num c hc
    exact ⟨(digitChar_facts m hm).2.1, (digitChar_facts m hm).2.2.2.2.1⟩
  have hply := tokenizeLine_plain (natToDec l.num)
    (' ' :: joinSep [' '] (l.atoms.map srcAtomText)) (natToDec_ne_nil l.num) hnum
    (fun c hc => by
      have hc2 : c = ' ' := by
        simp at hc
        exact hc.symm
      rw [hc2]
      decide)
  rw [hply, tokenizeLine_cons_ws ' ' _ (by decide), tokenizeLine_joinSep l.atoms h]

theorem assembleData_atoms (l : SrcLine) :
    assembleData (l.atoms.map srcAtomText) = lineBody l := by
  rw [assembleData, lineBody]
  have hcomment : isCommentLine (l.atoms.map srcAtomText) = lineIsRem l := by
    rw [isCommentLine, lineIsRem]
    cases l.atoms with
    | nil => rfl
    | cons a rest => rfl
  rw [hcomment]
  by_cases hrem : lineIsRem l = true
  · rw [if_pos hrem, if_pos hrem]
    cases l.atoms with
    | nil => rfl
    | cons a rest => rfl
  · rw [if_neg hrem, if_neg hrem]

theorem srcAtomText_ascii (a : SrcAtom) (h : srcAtomOk a = true) :
    ∀ c ∈ srcAtomText a, c.toNat < 128 := by
  cases a with
  | plain s =>
    intro c hc
    exact ((srcAtomOk_plain_parts h).2 c hc).1
  | quoted inner =>
    intro c hc
    rw [srcAtomText] at hc
    rcases List.mem_cons.mp hc with rfl | hc2
    · decide
    · rcases List.mem_append.mp hc2 with h3 | h3
      · exact (srcAtomOk_quoted_parts h c h3).1
      · simp at h3
        rw [h3]
        decide

theorem joinSep_chars {sep : List Char} :
    ∀ (ts : List (List Char)) (c : Char), c ∈ joinSep sep ts → c ∈ sep ∨ ∃ t ∈ ts, c ∈ t := by
  intro ts
  induction ts with
  | nil =>
    intro c hc
    simp [joinSep] at hc
  | cons t ts2 ih =>
    intro c hc
    cases ts2 with
    | nil =>
      right
      exact ⟨t, List.mem_cons_self t [], hc⟩
    | cons u ts3 =>
      rw [joinSep] at hc
      rcases List.mem_append.mp hc with h1 | h1
      · rcases List.mem_append.mp h1 with h2 | h2
        · right
          exact ⟨t, List.mem_cons_self _ _, h2⟩
        · left
          exact h2
      · rcases ih c h1 with h2 | h2
        · left
          exact h2
        · obtain ⟨u2, hu2, hc2⟩ := h2
          right
          exact ⟨u2, List.mem_cons_of_mem t hu2, hc2⟩

theorem table_keys_le : ∀ p ∈ OpcodeToApplesoftInstructionMap, p.1 ≤ 255 := by decide

theorem table_keys_ge : ∀ p ∈ OpcodeToApplesoftInstructionMap, 128 ≤ p.1 := by decide

theorem table_mnemonic_back :
    ∀ p ∈ OpcodeToApplesoftInstructionMap, findMnemonicForByte p.1 = some p.2 := by decide

theorem findOpcodeForAtom_entry {t : List Char} {c : Nat} (h : findOpcodeForAtom t = some c) :
    ∃ e ∈ OpcodeToApplesoftInstructionMap, e.1 = c ∧ e.2 = t := by
  rw [findOpcodeForAtom] at h
  cases hfind : OpcodeToApplesoftInstructionMap.find? (fun e => e.2 = t) with
  | none =>
    rw [hfind] at h
    simp at h
  | some e =>
    rw [hfind] at h
    have hmem := List.mem_of_find?_eq_some hfind
    have hp := List.find?_some hfind
    simp at hp h
    exact ⟨e, hmem, h, hp⟩

theorem lineBody_le (l : SrcLine) (hok : ∀ a ∈ l.atoms, srcAtomOk a = true) :
    ∀ b ∈ lineBody l, b ≤ 255 := by
  rw [lineBody]
  by_cases hrem : lineIsRem l = true
  · rw [if_pos hrem]
    intro b hb
    rcases List.mem_cons.mp hb with rfl | hb2
    · norm_num
    rcases List.mem_cons.mp hb2 with rfl | hb3
    · norm_num
    obtain ⟨c, hc, rfl⟩ := List.mem_map.mp hb3
    rcases joinSep_chars _ c hc with hsep | h2
    · have hc2 : c = ' ' := by simpa using hsep
      rw [hc2]
      decide
    · obtain ⟨t, ht, hct⟩ := h2
      obtain ⟨a2, ha2, rfl⟩ := List.mem_map.mp ht
      have ha2mem : a2 ∈ l.atoms := List.drop_subset 1 l.atoms ha2
      have := srcAtomText_ascii a2 (hok a2 ha2mem) c hct
      rw [charCode]
      omega
  · rw [if_neg hrem]
    intro b hb
    rw [List.mem_flatten] at hb
    obtain ⟨chunk, hchunk, hbc⟩ := hb
    obtain ⟨t, ht, rfl⟩ := List.mem_map.mp hchunk
    obtain ⟨a2, ha2, rfl⟩ := List.mem_map.mp ht
    cases hfind : findOpcodeForAtom (srcAtomText a2) with
    | some op =>
      rw [hfind] at hbc
      have hb2 : b = op := by simpa using hbc
      obtain ⟨e, hmem, he1, _⟩ := findOpcodeForAtom_entry hfind
      rw [hb2, ← he1]
      exact table_keys_le e hmem
    | none =>
      rw [hfind] at hbc
      obtain ⟨c, hc, rfl⟩ := List.mem_map.mp hbc
      have := srcAtomText_ascii a2 (hok a2 ha2) c hc
      rw [charCode]
      omega

theorem wfStdLine_parts {l : SrcLine} (h : wfStdLine l = true) :
    l.num < 63999 ∧ l.atoms ≠ [] ∧ (∀ a ∈ l.atoms, srcAtomOk a = true) ∧
    alternatingOk l.atoms = true ∧ (∀ a ∈ l.atoms, noDoubleSpace (srcAtomText a) = true) ∧
    lineIsRem l = false := by
  rw [wfStdLine] at h
  simp only [Bool.and_eq_true] at h
  obtain ⟨⟨⟨⟨⟨h1, h2⟩, h3⟩, h4⟩, h5⟩, h6⟩ := h
  refine ⟨by exact_mod_cast of_decide_eq_true h1, ?_, ?_, h4, ?_, ?_⟩
  · intro hnil
    rw [hnil] at h2
    simp at h2
  · intro a ha
    exact List.all_eq_true.mp h3 a ha
  · intro a ha
    exact List.all_eq_true.mp h5 a ha
  · simpa using h6

theorem wfRemLine_parts {l : SrcLine} (h : wfRemLine l = true) :
    l.num < 63999 ∧ (∃ a, l.atoms.head? = some a ∧ srcAtomText a = ['R', 'E', 'M']) ∧
    ∀ a ∈ l.atoms, srcAtomOk a = true := by
  rw [wfRemLine] at h
  simp only [Bool.and_eq_true] at h
  obtain ⟨⟨h1, h2⟩, h3⟩ := h
  refine ⟨by exact_mod_cast of_decide_eq_true h1, ?_, ?_⟩
  · cases hh : l.atoms.head? with
    | none =>
      rw [hh] at h2
      simp at h2
    | some a =>
      rw [hh] at h2
      exact ⟨a, rfl, of_decide_eq_true h2⟩
  · intro a ha
    exact List.all_eq_true.mp h3 a ha

theorem wfLine_parts {l : SrcLine} (h : wfLine l = true) :
    l.num < 63999 ∧ l.atoms ≠ [] ∧ ∀ a ∈ l.atoms, srcAtomOk a = true := by
  rw [wfLine, Bool.or_eq_true] at h
  rcases h with h | h
  · obtain ⟨h1, h2, h3, _⟩ := wfStdLine_parts h
    exact ⟨h1, h2, h3⟩
  · obtain ⟨h1, ⟨a, ha, _⟩, h3⟩ := wfRemLine_parts h
    refine ⟨h1, ?_, h3⟩
    intro hnil
    rw [hnil] at ha
    simp at ha

theorem assembleLine_lineText (addr : Nat) (l : SrcLine) (hwf : wfLine l = true)
    (haddr : addr + lineByteCount l + 1 ≤ 65535) :
    assembleLine addr (lineText l) = .ok (lineBytes addr l) := by
  obtain ⟨hnum, hne, hok⟩ := wfLine_parts hwf
  have htok := tokenizeLine_lineText l hok
  have hparse : parsedLineNumberOfParts (natToDec l.num :: l.atoms.map srcAtomText) =
      some (l.num : Int) := by
    show parseIntJS (natToDec l.num) = some (l.num : Int)
    exact parseIntJS_natToDec l.num
  have hvalid : lineNumberInvalid (some (l.num : Int)) = false := by
    rw [lineNumberInvalid]
    have h1 : decide ((l.num : Int) < 0) = false := decide_eq_false (by omega)
    have h2 : decide ((63999 : Int) ≤ (l.num : Int)) = false := decide_eq_false (by omega)
    rw [h1, h2]
    rfl
  simp only [assembleLine]
  rw [htok, hparse, hvalid]
  simp only [Bool.false_eq_true, if_false]
  have htail : (natToDec l.num :: l.atoms.map srcAtomText).tail = l.atoms.map srcAtomText := rfl
  rw [htail, assembleData_atoms]
  have hcount : 2 + 2 + (lineBody l).length + 1 = lineByteCount l := by
    rw [lineByteCount]
    omega
  rw [if_neg ?haddr2]
  case haddr2 =>
    rw [hcount]
    omega
  have hany : ((lineBody l).any fun b => decide (255 < b)) = false := by
    rw [List.any_eq_false]
    intro b hb
    simp only [decide_eq_true_eq]
    have := lineBody_le l hok b hb
    omega
  rw [hany]
  simp only [Bool.false_eq_true, if_false]
  have hA : addr + (2 + 2 + (lineBody l).length + 1) + 1 = addr + lineByteCount l + 1 := by
    rw [hcount]
  have hln : lineNumberBytes (some (l.num : Int)) = toLE16 l.num := by
    rw [lineNumberBytes]
    norm_num
  rw [hA, hln, lineBytes]

end SoftScript

namespace SoftScript

theorem mem_of_getLast_eq {α : Type} {l : List α} {a : α} (h : l.getLast? = some a) : a ∈ l := by
  have h2 : l.reverse.head? = some a := by rw [List.head?_reverse]; exact h
  have h3 : a ∈ l.reverse := List.mem_of_mem_head? h2
  simpa using h3

theorem head_append_of_ne_nil {α : Type} (l t : List α) (h : l ≠ []) :
    (l ++ t).head? = l.head? := by
  cases l with
  | nil => exact absurd rfl h
  | cons c cs => rfl

theorem findMnemonic_of_findOpcode {t : List Char} {c : Nat}
    (h : findOpcodeForAtom t = some c) : findMnemonicForByte c = some t := by
  obtain ⟨e, hmem, he1, he2⟩ := findOpcodeForAtom_entry h
  have hb := table_mnemonic_back e hmem
  rw [he1, he2] at hb
  exact hb

theorem decodeDataByte_ascii (c : Nat) (h : c < 128) : decodeDataByte c = [Char.ofNat c] := by
  rw [decodeDataByte]
  have hnone : findMnemonicForByte c = none := by
    rw [findMnemonicForByte]
    have hfind : OpcodeToApplesoftInstructionMap.find? (fun e => e.1 = c) = none := by
      rw [List.find?_eq_none]
      intro p hp
      have := table_keys_ge p hp
      simp only [decide_eq_true_eq]
      omega
    rw [hfind]
    rfl
  rw [hnone]

theorem decode_ascii_chars (s : List Char) (h : ∀ c ∈ s, c.toNat < 128) :
    ((s.map charCode).map decodeDataByte).flatten = s := by
  induction s with
  | nil => rfl
  | cons c cs ih =>
    simp only [List.map_cons, List.flatten_cons]
    rw [decodeDataByte_ascii (charCode c) (h c (List.mem_cons_self c cs))]
    rw [ih (fun d hd => h d (List.mem_cons_of_mem c hd))]
    rw [charCode, Char.ofNat_toNat]
    rfl

theorem decode_body_chunks (atoms : List SrcAtom)
    (hok : ∀ a ∈ atoms, srcAtomOk a = true) :
    ((((atoms.map srcAtomText).map (fun t =>
        match findOpcodeForAtom t with
        | some opcode => [opcode]
        | none => t.map charCode)).flatten).map decodeDataByte).flatten =
      (atoms.map pieceText).flatten := by
  induction atoms with
  | nil => rfl
  | cons a rest ih =>
    simp only [List.map_cons, List.flatten_cons, List.map_append, List.flatten_append]
    rw [ih (fun x hx => hok x (List.mem_cons_of_mem a hx))]
    congr 1
    cases hfind : findOpcodeForAtom (srcAtomText a) with
    | some op =>
      have hop : atomIsOpcode a = true := by rw [atomIsOpcode, hfind]; rfl
      rw [pieceText, if_pos hop]
      have hmn := findMnemonic_of_findOpcode hfind
      show (([op].map decodeDataByte)).flatten = ' ' :: (srcAtomText a ++ [' '])
      rw [List.map_cons, List.map_nil, List.flatten_cons, List.flatten_nil, List.append_nil]
      rw [decodeDataByte, hmn]
      rfl
    | none =>
      have hop : atomIsOpcode a = false := by rw [atomIsOpcode, hfind]; rfl
      rw [pieceText, if_neg (by rw [hop]; exact Bool.false_ne_true)]
      show ((((srcAtomText a).map charCode).map decodeDataByte)).flatten = srcAtomText a
      exact decode_ascii_chars _ (srcAtomText_ascii a (hok a (List.mem_cons_self a rest)))

theorem concatPieces_eq :
    ∀ (a : SrcAtom) (rest : List SrcAtom), alternatingOk (a :: rest) = true →
      ((a :: rest).map pieceText).flatten =
        padIf (atomIsOpcode a) ++ joinSep [' '] ((a :: rest).map srcAtomText) ++
          padIf (lastIsOpcode (a :: rest)) := by
  intro a rest
  induction rest generalizing a with
  | nil =>
    intro _
    have hlast : lastIsOpcode [a] = atomIsOpcode a := rfl
    rw [hlast]
    show pieceText a ++ [] = padIf (atomIsOpcode a) ++ srcAtomText a ++ padIf (atomIsOpcode a)
    rw [pieceText, padIf]
    cases hop : atomIsOpcode a
    · simp
    · simp
  | cons b rest2 ih =>
    intro halt
    rw [alternatingOk, Bool.and_eq_true] at halt
    obtain ⟨hne, halt2⟩ := halt
    have hih := ih b halt2
    show pieceText a ++ ((b :: rest2).map pieceText).flatten = _
    rw [hih]
    have hlast : lastIsOpcode (a :: b :: rest2) = lastIsOpcode (b :: rest2) := by
      rw [lastIsOpcode, lastIsOpcode, List.getLast?_cons_cons]
    rw [hlast]
    have hjoin : joinSep [' '] ((a :: b :: rest2).map srcAtomText) =
        srcAtomText a ++ [' '] ++ joinSep [' '] ((b :: rest2).map srcAtomText) := rfl
    rw [hjoin]
    rw [pieceText]
    cases hopa : atomIsOpcode a
    · have hopb : atomIsOpcode b = true := by
        rw [hopa] at hne
        simpa using hne
      rw [hopb]
      simp [padIf, List.append_assoc]
    · have hopb : atomIsOpcode b = false := by
        rw [hopa] at hne
        simpa using hne
      rw [hopb]
      simp [padIf, List.append_assoc]

end SoftScript

namespace SoftScript

theorem noDoubleSpace_append (s t : List Char) (hs : noDoubleSpace s = true)
    (ht : noDoubleSpace t = true)
    (hb : s.getLast? = some ' ' → t.head? = some ' ' → False) :
    noDoubleSpace (s ++ t) = true := by
  induction s with
  | nil => simpa using ht
  | cons c s2 ih =>
    cases s2 with
    | nil =>
      cases t with
      | nil => simpa using hs
      | cons d t2 =>
        show noDoubleSpace (c :: d :: t2) = true
        rw [noDoubleSpace, Bool.and_eq_true]
        constructor
        · by_contra hcon
          simp only [Bool.not_eq_true', Bool.not_eq_false, Bool.and_eq_true,
            decide_eq_true_eq] at hcon
          exact hb (by rw [hcon.1]; rfl) (by rw [hcon.2]; rfl)
        · simpa using ht
    | cons c2 s3 =>
      show noDoubleSpace (c :: c2 :: (s3 ++ t)) = true
      rw [noDoubleSpace, Bool.and_eq_true]
      rw [noDoubleSpace, Bool.and_eq_true] at hs
      obtain ⟨h1, h2⟩ := hs
      refine ⟨h1, ?_⟩
      have hb2 : (c2 :: s3).getLast? = some ' ' → t.head? = some ' ' → False := by
        intro hx hy
        have : (c :: c2 :: s3).getLast? = some ' ' := by
          rw [List.getLast?_cons_cons]
          exact hx
        exact hb this hy
      exact ih h2 hb2

theorem srcAtomText_ne_nil (a : SrcAtom) (h : srcAtomOk a = true) : srcAtomText a ≠ [] := by
  cases a with
  | plain s => exact (srcAtomOk_plain_parts h).1
  | quoted inner =>
    rw [srcAtomText]
    simp

theorem srcAtomText_head_nonws (a : SrcAtom) (h : srcAtomOk a = true) :
    ∀ c, (srcAtomText a).head? = some c → jsWhitespace c = false := by
  cases a with
  | plain s =>
    intro c hc
    have hmem : c ∈ s := List.mem_of_mem_head? hc
    exact ((srcAtomOk_plain_parts h).2 c hmem).2.1
  | quoted inner =>
    intro c hc
    have : c = '"' := by
      rw [srcAtomText] at hc
      simpa using hc.symm
    rw [this]
    decide

theorem srcAtomText_last_nonws (a : SrcAtom) (h : srcAtomOk a = true) :
    ∀ c, (srcAtomText a).getLast? = some c → jsWhitespace c = false := by
  cases a with
  | plain s =>
    intro c hc
    have hmem : c ∈ s := mem_of_getLast_eq hc
    exact ((srcAtomOk_plain_parts h).2 c hmem).2.1
  | quoted inner =>
    intro c hc
    have hform : srcAtomText (.quoted inner) = ('"' :: inner) ++ ['"'] := rfl
    rw [hform, List.getLast?_concat] at hc
    have : c = '"' := by simpa using hc.symm
    rw [this]
    decide

theorem joinSep_ne_nil (ts : List (List Char)) (hne : ts ≠ []) (h : ∀ t ∈ ts, t ≠ []) :
    joinSep [' '] ts ≠ [] := by
  cases ts with
  | nil => exact absurd rfl hne
  | cons t ts2 =>
    cases ts2 with
    | nil => exact h t (List.mem_cons_self t [])
    | cons u ts3 =>
      rw [joinSep]
      simp [List.append_eq_nil]

theorem joinSep_head (ts : List (List Char)) (t0 : List Char) (h0 : ts.head? = some t0)
    (hne : t0 ≠ []) : (joinSep [' '] ts).head? = t0.head? := by
  cases ts with
  | nil => simp at h0
  | cons t ts2 =>
    have ht : t = t0 := by simpa using h0
    subst ht
    cases ts2 with
    | nil => rfl
    | cons u ts3 =>
      rw [joinSep, List.append_assoc]
      exact head_append_of_ne_nil t _ hne

theorem joinSep_last (ts : List (List Char)) (tl : List Char) (h0 : ts.getLast? = some tl)
    (hne : tl ≠ []) : (joinSep [' '] ts).getLast? = tl.getLast? := by
  induction ts with
  | nil => simp at h0
  | cons t ts2 ih =>
    cases ts2 with
    | nil =>
      have ht : t = tl := by simpa using h0
      subst ht
      rfl
    | cons u ts3 =>
      rw [List.getLast?_cons_cons] at h0
      have hrest := ih h0
      have hjne : joinSep [' '] (u :: ts3) ≠ [] := by
        intro hnil
        rw [hnil] at hrest
        have : tl.getLast? = none := hrest.symm
        cases tl with
        | nil => exact hne rfl
        | cons x xs => simp [List.getLast?_eq_none_iff] at this
      rw [joinSep]
      rw [List.getLast?_append_of_ne_nil _ hjne]
      exact hrest

theorem joinSep_noDS (ts : List (List Char))
    (hok : ∀ t ∈ ts, t ≠ [] ∧ noDoubleSpace t = true ∧
      (∀ c, t.head? = some c → jsWhitespace c = false) ∧
      (∀ c, t.getLast? = some c → jsWhitespace c = false)) :
    noDoubleSpace (joinSep [' '] ts) = true := by
  induction ts with
  | nil => rfl
  | cons t ts2 ih =>
    cases ts2 with
    | nil => exact (hok t (List.mem_cons_self t [])).2.1
    | cons u ts3 =>
      rw [joinSep]
      obtain ⟨htne, htds, hth, htl⟩ := hok t (List.mem_cons_self t _)
      have hok2 : ∀ x ∈ u :: ts3, x ≠ [] ∧ noDoubleSpace x = true ∧
          (∀ c, x.head? = some c → jsWhitespace c = false) ∧
          (∀ c, x.getLast? = some c → jsWhitespace c = false) :=
        fun x hx => hok x (List.mem_cons_of_mem t hx)
      have hts : noDoubleSpace (t ++ [' ']) = true := by
        refine noDoubleSpace_append t [' '] htds rfl ?_
        intro hx _
        have := htl ' ' hx
        simp [jsWhitespace] at this
      refine noDoubleSpace_append (t ++ [' ']) _ hts (ih hok2) ?_
      intro _ hy
      obtain ⟨hune, _, huh, _⟩ := hok2 u (List.mem_cons_self u ts3)
      have hhead : (joinSep [' '] (u :: ts3)).head? = u.head? :=
        joinSep_head (u :: ts3) u rfl hune
      rw [hhead] at hy
      have := huh ' ' hy
      simp [jsWhitespace] at this

theorem replaceFirstDoubleSpace_of_noDouble (s : List Char)
    (h : noDoubleSpace s = true) : replaceFirstDoubleSpace s = s := by
  induction s with
  | nil => rfl
  | cons c rest ih =>
    cases rest with
    | nil => rfl
    | cons d rest2 =>
      rw [noDoubleSpace, Bool.and_eq_true] at h
      obtain ⟨h1, h2⟩ := h
      rw [replaceFirstDoubleSpace]
      have h1b : (decide (c = ' ') && decide (d = ' ')) = false := by
        simp only [Bool.not_eq_true'] at h1
        exact h1
      rw [h1b]
      simp only [Bool.false_eq_true, if_false]
      rw [ih h2]

end SoftScript

namespace SoftScript

theorem dropWhile_ws_of_head (s : List Char)
    (h : ∀ c, s.head? = some c → jsWhitespace c = false) :
    s.dropWhile jsWhitespace = s := by
  cases s with
  | nil => rfl
  | cons c cs =>
    rw [List.dropWhile_cons, h c rfl]
    simp

theorem jsTrim_pad (mid : List Char) (x y : Bool) (hne : mid ≠ [])
    (hh : ∀ c, mid.head? = some c → jsWhitespace c = false)
    (hl : ∀ c, mid.getLast? = some c → jsWhitespace c = false) :
    jsTrim (padIf x ++ mid ++ padIf y) = mid := by
  rw [jsTrim, List.append_assoc]
  have hh2 : ∀ c, (mid ++ padIf y).head? = some c → jsWhitespace c = false := by
    intro c hc
    rw [head_append_of_ne_nil mid _ hne] at hc
    exact hh c hc
  have h1 : (padIf x ++ (mid ++ padIf y)).dropWhile jsWhitespace = mid ++ padIf y := by
    cases x
    · show ([] ++ (mid ++ padIf y)).dropWhile jsWhitespace = _
      rw [List.nil_append]
      exact dropWhile_ws_of_head _ hh2
    · show ((' ' :: []) ++ (mid ++ padIf y)).dropWhile jsWhitespace = _
      rw [List.cons_append, List.nil_append, List.dropWhile_cons]
      rw [if_pos (show jsWhitespace ' ' = true from rfl)]
      exact dropWhile_ws_of_head _ hh2
  rw [h1]
  have hrevh : ∀ c, mid.reverse.head? = some c → jsWhitespace c = false := by
    intro c hc
    rw [List.head?_reverse] at hc
    exact hl c hc
  have h2 : (mid ++ padIf y).reverse.dropWhile jsWhitespace = mid.reverse := by
    rw [List.reverse_append]
    cases y
    · show (([] : List Char).reverse ++ mid.reverse).dropWhile jsWhitespace = _
      rw [List.reverse_nil, List.nil_append]
      exact dropWhile_ws_of_head _ hrevh
    · show ((' ' :: []).reverse ++ mid.reverse).dropWhile jsWhitespace = _
      rw [List.reverse_cons, List.reverse_nil, List.nil_append, List.cons_append,
        List.nil_append, List.dropWhile_cons]
      rw [if_pos (show jsWhitespace ' ' = true from rfl)]
      exact dropWhile_ws_of_head _ hrevh
  rw [h2, List.reverse_reverse]

theorem noDoubleSpace_padded (x y : Bool) (mid : List Char)
    (hmid : noDoubleSpace mid = true) (hne : mid ≠ [])
    (hh : ∀ c, mid.head? = some c → jsWhitespace c = false)
    (hl : ∀ c, mid.getLast? = some c → jsWhitespace c = false) :
    noDoubleSpace (padIf x ++ mid ++ padIf y) = true := by
  have hmp : noDoubleSpace (mid ++ padIf y) = true := by
    refine noDoubleSpace_append mid (padIf y) hmid ?_ ?_
    · cases y <;> rfl
    · intro hx _
      have := hl ' ' hx
      simp [jsWhitespace] at this
  rw [List.append_assoc]
  refine noDoubleSpace_append (padIf x) _ (by cases x <;> rfl) hmp ?_
  intro _ hy
  rw [head_append_of_ne_nil mid _ hne] at hy
  have := hh ' ' hy
  simp [jsWhitespace] at this

theorem joinSep_head_nonws (ts : List (List Char)) (hne : ts ≠ [])
    (hok : ∀ t ∈ ts, t ≠ [] ∧ (∀ c, t.head? = some c → jsWhitespace c = false)) :
    ∀ c, (joinSep [' '] ts).head? = some c → jsWhitespace c = false := by
  intro c hc
  obtain ⟨t, ts2, rfl⟩ := List.exists_cons_of_ne_nil hne
  obtain ⟨htne, hth⟩ := hok t (List.mem_cons_self t ts2)
  rw [joinSep_head (t :: ts2) t rfl htne] at hc
  exact hth c hc

theorem joinSep_last_nonws (ts : List (List Char)) (hne : ts ≠ [])
    (hok : ∀ t ∈ ts, t ≠ [] ∧ (∀ c, t.head? = some c → jsWhitespace c = false) ∧
      (∀ c, t.getLast? = some c → jsWhitespace c = false)) :
    ∀ c, (joinSep [' '] ts).getLast? = some c → jsWhitespace c = false := by
  intro c hc
  cases hgl : ts.getLast? with
  | none =>
    rw [List.getLast?_eq_none_iff] at hgl
    exact absurd hgl hne
  | some tl =>
    have hmem := mem_of_getLast_eq hgl
    obtain ⟨htlne, _, htll⟩ := hok tl hmem
    rw [joinSep_last ts tl hgl htlne] at hc
    exact htll c hc

theorem dataString_std (l : SrcLine) (hwf : wfStdLine l = true) :
    jsTrim (replaceFirstDoubleSpace (((lineBody l).map decodeDataByte).flatten)) =
      joinSep [' '] (l.atoms.map srcAtomText) := by
  obtain ⟨hnum, hne, hok, halt, hnds, hrem⟩ := wfStdLine_parts hwf
  have hbody : lineBody l = ((l.atoms.map srcAtomText).map (fun t =>
      match findOpcodeForAtom t with
      | some opcode => [opcode]
      | none => t.map charCode)).flatten := by
    rw [lineBody, if_neg (by rw [hrem]; exact Bool.false_ne_true)]
  rw [hbody, decode_body_chunks l.atoms hok]
  obtain ⟨a, rest, hal⟩ := List.exists_cons_of_ne_nil hne
  rw [hal]
  rw [concatPieces_eq a rest (by rw [← hal]; exact halt)]
  have hfacts : ∀ t ∈ (a :: rest).map srcAtomText, t ≠ [] ∧ noDoubleSpace t = true ∧
      (∀ c, t.head? = some c → jsWhitespace c = false) ∧
      (∀ c, t.getLast? = some c → jsWhitespace c = false) := by
    intro t ht
    obtain ⟨a2, ha2, rfl⟩ := List.mem_map.mp ht
    have hmem : a2 ∈ l.atoms := by rw [hal]; exact ha2
    exact ⟨srcAtomText_ne_nil a2 (hok a2 hmem), hnds a2 hmem,
      srcAtomText_head_nonws a2 (hok a2 hmem), srcAtomText_last_nonws a2 (hok a2 hmem)⟩
  have hJne : joinSep [' '] ((a :: rest).map srcAtomText) ≠ [] :=
    joinSep_ne_nil _ (by simp) (fun t ht => (hfacts t ht).1)
  have hJh := joinSep_head_nonws ((a :: rest).map srcAtomText) (by simp)
    (fun t ht => ⟨(hfacts t ht).1, (hfacts t ht).2.2.1⟩)
  have hJl := joinSep_last_nonws ((a :: rest).map srcAtomText) (by simp)
    (fun t ht => ⟨(hfacts t ht).1, (hfacts t ht).2.2.1, (hfacts t ht).2.2.2⟩)
  have hJds : noDoubleSpace (joinSep [' '] ((a :: rest).map srcAtomText)) = true :=
    joinSep_noDS _ hfacts
  have hNDS := noDoubleSpace_padded (atomIsOpcode a) (lastIsOpcode (a :: rest)) _
    hJds hJne hJh hJl
  rw [replaceFirstDoubleSpace_of_noDouble _ hNDS]
  exact jsTrim_pad _ _ _ hJne hJh hJl

theorem replaceFirst_rem (t : List Char) :
    replaceFirstDoubleSpace (' ' :: 'R' :: 'E' :: 'M' :: ' ' :: ' ' :: t) =
      ' ' :: 'R' :: 'E' :: 'M' :: ' ' :: t := by
  rw [replaceFirstDoubleSpace, if_neg (by decide)]
  rw [replaceFirstDoubleSpace, if_neg (by decide)]
  rw [replaceFirstDoubleSpace, if_neg (by decide)]
  rw [replaceFirstDoubleSpace, if_neg (by decide)]
  rw [replaceFirstDoubleSpace, if_pos (by decide)]

theorem dataString_rem (l : SrcLine) (hwf : wfRemLine l = true) :
    jsTrim (replaceFirstDoubleSpace (((lineBody l).map decodeDataByte).flatten)) =
      joinSep [' '] (l.atoms.map srcAtomText) := by
  obtain ⟨hnum, ⟨a, hha, hatext⟩, hok⟩ := wfRemLine_parts hwf
  have hremT : lineIsRem l = true := by
    rw [lineIsRem, hha]
    show decide (jsToLower (srcAtomText a) = ['r', 'e', 'm']) = true
    rw [hatext]
    decide
  obtain ⟨a0, tail, hat⟩ := List.exists_cons_of_ne_nil
    (show l.atoms ≠ [] by intro hnil; rw [hnil] at hha; simp at hha)
  have ha0 : a0 = a := by
    rw [hat] at hha
    simpa using hha
  rw [ha0] at hat
  have hdrop : l.atoms.drop 1 = tail := by rw [hat]; rfl
  have hbody : lineBody l =
      0xb2 :: 0x20 :: (joinSep [' '] (tail.map srcAtomText)).map charCode := by
    rw [lineBody, if_pos hremT, hdrop]
  have hTascii : ∀ c ∈ joinSep [' '] (tail.map srcAtomText), c.toNat < 128 := by
    intro c hc
    rcases joinSep_chars _ c hc with hsep | ⟨t, ht, hct⟩
    · have hcs : c = ' ' := by simpa using hsep
      rw [hcs]; decide
    · obtain ⟨a2, ha2, rfl⟩ := List.mem_map.mp ht
      have hmem : a2 ∈ l.atoms := by rw [hat]; exact List.mem_cons_of_mem _ ha2
      exact srcAtomText_ascii a2 (hok a2 hmem) c hct
  have hdec : ((lineBody l).map decodeDataByte).flatten =
      ' ' :: 'R' :: 'E' :: 'M' :: ' ' :: ' ' :: joinSep [' '] (tail.map srcAtomText) := by
    rw [hbody]
    simp only [List.map_cons, List.flatten_cons]
    rw [decode_ascii_chars _ hTascii]
    rw [(by decide : decodeDataByte 0xb2 = [' ', 'R', 'E', 'M', ' '])]
    rw [(by decide : decodeDataByte 0x20 = [' '])]
    rfl
  rw [hdec, replaceFirst_rem, hat]
  cases tail with
  | nil =>
    have hsingle : joinSep [' '] (List.map srcAtomText [a]) = srcAtomText a := rfl
    rw [hsingle, hatext]
    decide
  | cons b tail2 =>
    have hTne : joinSep [' '] ((b :: tail2).map srcAtomText) ≠ [] := by
      refine joinSep_ne_nil _ (by simp) ?_
      intro t ht
      obtain ⟨a2, ha2, rfl⟩ := List.mem_map.mp ht
      have hmem : a2 ∈ l.atoms := by rw [hat]; exact List.mem_cons_of_mem _ ha2
      exact srcAtomText_ne_nil a2 (hok a2 hmem)
    have hTl : ∀ c, (joinSep [' '] ((b :: tail2).map srcAtomText)).getLast? = some c →
        jsWhitespace c = false := by
      refine joinSep_last_nonws _ (by simp) ?_
      intro t ht
      obtain ⟨a2, ha2, rfl⟩ := List.mem_map.mp ht
      have hmem : a2 ∈ l.atoms := by rw [hat]; exact List.mem_cons_of_mem _ ha2
      exact ⟨srcAtomText_ne_nil a2 (hok a2 hmem),
        srcAtomText_head_nonws a2 (hok a2 hmem),
        srcAtomText_last_nonws a2 (hok a2 hmem)⟩
    have hmid_ne : ('R' :: 'E' :: 'M' :: ' ' ::
        joinSep [' '] ((b :: tail2).map srcAtomText)) ≠ [] := by simp
    have hmid_h : ∀ c, ('R' :: 'E' :: 'M' :: ' ' ::
        joinSep [' '] ((b :: tail2).map srcAtomText)).head? = some c →
        jsWhitespace c = false := by
      intro c hc
      have hcr : c = 'R' := by simpa using hc.symm
      rw [hcr]; decide
    have hmid_l : ∀ c, ('R' :: 'E' :: 'M' :: ' ' ::
        joinSep [' '] ((b :: tail2).map srcAtomText)).getLast? = some c →
        jsWhitespace c = false := by
      intro c hc
      have hform : ('R' :: 'E' :: 'M' :: ' ' ::
          joinSep [' '] ((b :: tail2).map srcAtomText)) =
          ['R', 'E', 'M', ' '] ++ joinSep [' '] ((b :: tail2).map srcAtomText) := rfl
      rw [hform, List.getLast?_append_of_ne_nil _ hTne] at hc
      exact hTl c hc
    have htrim := jsTrim_pad ('R' :: 'E' :: 'M' :: ' ' ::
      joinSep [' '] ((b :: tail2).map srcAtomText)) true false hmid_ne hmid_h hmid_l
    have htrim2 : jsTrim (' ' :: 'R' :: 'E' :: 'M' :: ' ' ::
        joinSep [' '] ((b :: tail2).map srcAtomText)) =
        'R' :: 'E' :: 'M' :: ' ' :: joinSep [' '] ((b :: tail2).map srcAtomText) := by
      simpa [padIf] using htrim
    rw [htrim2]
    have hjoin : joinSep [' '] ((a :: b :: tail2).map srcAtomText) =
        srcAtomText a ++ [' '] ++ joinSep [' '] ((b :: tail2).map srcAtomText) := rfl
    rw [hjoin, hatext]
    rfl

theorem dataString_wf (l : SrcLine) (hwf : wfLine l = true) :
    jsTrim (replaceFirstDoubleSpace (((lineBody l).map decodeDataByte).flatten)) =
      joinSep [' '] (l.atoms.map srcAtomText) := by
  rw [wfLine, Bool.or_eq_true] at hwf
  rcases hwf with h | h
  · exact dataString_std l h
  · exact dataString_rem l h

end SoftScript

namespace SoftScript

theorem jsGet_append_left (pre X : List Nat) (k : Nat) :
    jsGet (pre ++ X) ((pre.length + k : Nat) : Int) = jsGet X (k : Int) := by
  rw [jsGet, jsGet, if_pos (Int.natCast_nonneg _), if_pos (Int.natCast_nonneg _)]
  rw [Int.toNat_natCast, Int.toNat_natCast]
  simp [List.getD_eq_getElem?_getD, List.getElem?_append_right (Nat.le_add_right pre.length k)]

theorem readInt16_append_left (pre X : List Nat) (k : Nat) :
    readInt16 (pre ++ X) ((pre.length + k : Nat) : Int) = readInt16 X (k : Int) := by
  rw [readInt16, readInt16]
  have hlen : (pre ++ X).length = pre.length + X.length := List.length_append pre X
  by_cases h : (X.length : Int) ≤ (k : Int) + 1
  · rw [if_pos (by rw [hlen]; push_cast; omega), if_pos h]
  · rw [if_neg (by rw [hlen]; push_cast; omega), if_neg h]
    have h1 : ((pre.length + k : Nat) : Int) + 1 = ((pre.length + (k + 1) : Nat) : Int) := by
      push_cast
      ring
    rw [h1, jsGet_append_left, jsGet_append_left]
    have hc : ((k + 1 : Nat) : Int) = (k : Int) + 1 := by push_cast; ring
    rw [hc]

theorem readInt16_append_left_zero (pre X : List Nat) :
    readInt16 (pre ++ X) (pre.length : Int) = readInt16 X 0 := by
  have h := readInt16_append_left pre X 0
  simp only [Nat.add_zero, Nat.cast_zero] at h
  exact h

theorem jsSlice_extract (pre mid : List Nat) (r0 : Nat) (rest2 : List Nat) :
    jsSlice (pre ++ (mid ++ r0 :: rest2)) (pre.length : Int)
      ((pre.length + mid.length + 1 : Nat) : Int) = mid ++ [r0] := by
  rw [jsSlice]
  have hstop : jsClampIndex (pre ++ (mid ++ r0 :: rest2)).length
      ((pre.length + mid.length + 1 : Nat) : Int) = pre.length + (mid.length + 1) := by
    rw [jsClampIndex, if_neg (by omega), Int.toNat_natCast]
    simp only [List.length_append, List.length_cons]
    omega
  have hstart : jsClampIndex (pre ++ (mid ++ r0 :: rest2)).length (pre.length : Int)
      = pre.length := by
    rw [jsClampIndex, if_neg (by omega), Int.toNat_natCast]
    simp only [List.length_append, List.length_cons]
    omega
  rw [hstop, hstart, List.take_append, List.drop_left]
  have h2 : (mid ++ r0 :: rest2).take (mid.length + 1) = mid ++ [r0] := by
    have h3 : (mid ++ r0 :: rest2).take (mid.length + 1) = mid ++ (r0 :: rest2).take 1 :=
      List.take_append 1
    simpa using h3
  rw [h2]

theorem lineBytes_length (addr : Nat) (l : SrcLine) :
    (lineBytes addr l).length = lineByteCount l := by
  simp [lineBytes, toLE16, lineByteCount]
  omega

theorem disassembleLine_lineBytes (addr : Nat) (l : SrcLine) (x : Nat)
    (hwf : wfLine l = true) (haddr : addr + lineByteCount l + 1 ≤ 65535) :
    disassembleLine (lineBytes addr l ++ [x]) = .ok (expectedLine addr l) := by
  obtain ⟨hnum, hne, hok⟩ := wfLine_parts hwf
  have hform : lineBytes addr l ++ [x] =
      toLE16 (addr + lineByteCount l + 1) ++ (toLE16 l.num ++ (lineBody l ++ [0, x])) := by
    rw [lineBytes]
    simp [List.append_assoc]
  rw [hform]
  simp only [disassembleLine]
  rw [readInt16_toLE16_append _ _ haddr]
  simp only [bind_ok_eq]
  have h2 : readInt16 (toLE16 (addr + lineByteCount l + 1) ++
      (toLE16 l.num ++ (lineBody l ++ [0, x]))) 2 =
      readInt16 (toLE16 l.num ++ (lineBody l ++ [0, x])) 0 := by
    have h := readInt16_append_left (toLE16 (addr + lineByteCount l + 1))
      (toLE16 l.num ++ (lineBody l ++ [0, x])) 0
    have hc : (((toLE16 (addr + lineByteCount l + 1)).length + 0 : Nat) : Int) = 2 := by
      simp [toLE16]
    rw [hc] at h
    have hc2 : ((0 : Nat) : Int) = 0 := rfl
    rw [hc2] at h
    exact h
  rw [h2, readInt16_toLE16_append l.num _ (by omega)]
  simp only [bind_ok_eq]
  have hlen : (toLE16 (addr + lineByteCount l + 1) ++
      (toLE16 l.num ++ (lineBody l ++ [0, x]))).length = lineByteCount l + 1 := by
    simp only [List.length_append, List.length_cons, List.length_nil, toLE16, lineByteCount]
    simp
    omega
  rw [hlen]
  have hsub : lineByteCount l + 1 - 2 = 4 + (lineBody l).length := by
    rw [lineByteCount]
    omega
  rw [hsub]
  have htake : (toLE16 (addr + lineByteCount l + 1) ++
      (toLE16 l.num ++ (lineBody l ++ [0, x]))).take (4 + (lineBody l).length) =
      toLE16 (addr + lineByteCount l + 1) ++ (toLE16 l.num ++ lineBody l) := by
    have h1 : 4 + (lineBody l).length =
        (toLE16 (addr + lineByteCount l + 1)).length + (2 + (lineBody l).length) := by
      simp [toLE16]
      omega
    rw [h1, List.take_append]
    congr 1
    have h2b : 2 + (lineBody l).length = (toLE16 l.num).length + (lineBody l).length := by
      simp [toLE16]
    rw [h2b, List.take_append]
    congr 1
    simp
  rw [htake]
  have hdrop : (toLE16 (addr + lineByteCount l + 1) ++
      (toLE16 l.num ++ lineBody l)).drop 4 = lineBody l := by
    have h1 : toLE16 (addr + lineByteCount l + 1) ++ (toLE16 l.num ++ lineBody l) =
        (toLE16 (addr + lineByteCount l + 1) ++ toLE16 l.num) ++ lineBody l := by
      rw [List.append_assoc]
    rw [h1]
    have h2b : (4 : Nat) = (toLE16 (addr + lineByteCount l + 1) ++ toLE16 l.num).length := by
      simp [toLE16]
    rw [h2b, List.drop_left]
  rw [hdrop]
  rw [dataString_wf l hwf]
  rfl

end SoftScript

namespace SoftScript

theorem totalByteCount_cons (l : SrcLine) (L : List SrcLine) :
    totalByteCount (l :: L) = lineByteCount l + totalByteCount L := by
  simp [totalByteCount]

theorem disassembleLoop_linesBytes :
    ∀ (L : List SrcLine) (pre : List Nat) (fuel : Nat),
      (∀ l ∈ L, wfLine l = true) →
      2048 + pre.length + totalByteCount L + 1 ≤ 65535 →
      L.length + 1 ≤ fuel →
      disassembleLoop (pre ++ ((linesBytes (2048 + pre.length) L).flatten ++ [0, 0])) fuel
        ((2048 + pre.length : Nat) : Int) = .ok (expectedLines (2048 + pre.length) L) := by
  intro L
  induction L with
  | nil =>
    intro pre fuel h1 h2 h3
    cases fuel with
    | zero => omega
    | succ f =>
      simp only [linesBytes, List.flatten_nil, List.nil_append]
      simp only [disassembleLoop]
      rw [if_pos (by
        simp only [List.length_append, List.length_cons, List.length_nil]
        push_cast
        omega)]
      have hidx : ((2048 + pre.length : Nat) : Int) - 2048 = (pre.length : Int) := by
        push_cast
        ring
      rw [hidx]
      have hread : readInt16 (pre ++ [0, 0]) (pre.length : Int) = .ok 0 := by
        rw [readInt16_append_left_zero]
        decide
      rw [hread]
      simp only [bind_ok_eq]
      rw [if_pos (by simp)]
      rfl
  | cons l L' ih =>
    intro pre fuel h1 h2 h3
    cases fuel with
    | zero => simp at h3
    | succ f =>
      have hwl : wfLine l = true := h1 l (List.mem_cons_self l L')
      have htot := totalByteCount_cons l L'
      simp only [linesBytes, List.flatten_cons, expectedLines, List.append_assoc]
      simp only [disassembleLoop]
      rw [if_pos (by
        simp only [List.length_append, List.length_cons, List.length_nil]
        push_cast
        omega)]
      have hidx : ((2048 + pre.length : Nat) : Int) - 2048 = (pre.length : Int) := by
        push_cast
        ring
      rw [hidx]
      have hread : readInt16 (pre ++ (lineBytes (2048 + pre.length) l ++
          ((linesBytes (2048 + pre.length + lineByteCount l) L').flatten ++ [0, 0])))
          (pre.length : Int) = .ok (2048 + pre.length + lineByteCount l + 1) := by
        rw [readInt16_append_left_zero]
        have hlb : lineBytes (2048 + pre.length) l ++
            ((linesBytes (2048 + pre.length + lineByteCount l) L').flatten ++ [0, 0]) =
            toLE16 (2048 + pre.length + lineByteCount l + 1) ++
            (toLE16 l.num ++ (lineBody l ++ ([0] ++
              ((linesBytes (2048 + pre.length + lineByteCount l) L').flatten ++ [0, 0])))) := by
          rw [lineBytes]
          simp [List.append_assoc]
        rw [hlb]
        exact readInt16_toLE16_append _ _ (by omega)
      rw [hread]
      simp only [bind_ok_eq]
      rw [if_neg (by
        simp only [Bool.or_eq_true, decide_eq_true_eq, not_or]
        constructor
        · omega
        · push_cast
          omega)]
      obtain ⟨r0, rest2, hF⟩ := List.exists_cons_of_ne_nil
        (show (linesBytes (2048 + pre.length + lineByteCount l) L').flatten ++ [0, 0] ≠ []
          by simp)
      have hslice : jsSlice (pre ++ (lineBytes (2048 + pre.length) l ++
          ((linesBytes (2048 + pre.length + lineByteCount l) L').flatten ++ [0, 0])))
          ((pre.length : Int))
          ((pre.length : Int) + (((2048 + pre.length + lineByteCount l + 1 : Nat) : Int) -
            ((2048 + pre.length : Nat) : Int))) =
          lineBytes (2048 + pre.length) l ++ [r0] := by
        rw [hF]
        have e2 : (pre.length : Int) + (((2048 + pre.length + lineByteCount l + 1 : Nat) : Int) -
            ((2048 + pre.length : Nat) : Int)) =
            ((pre.length + (lineBytes (2048 + pre.length) l).length + 1 : Nat) : Int) := by
          rw [lineBytes_length]
          push_cast
          ring
        rw [e2]
        exact jsSlice_extract pre (lineBytes (2048 + pre.length) l) r0 rest2
      rw [hslice]
      have hdl : disassembleLine (lineBytes (2048 + pre.length) l ++ [r0]) =
          .ok (expectedLine (2048 + pre.length) l) :=
        disassembleLine_lineBytes (2048 + pre.length) l r0 hwl (by omega)
      rw [hdl]
      simp only [bind_ok_eq]
      have hproj : (((expectedLine (2048 + pre.length) l).nextInstructionAddress : Nat) : Int)
          - 1 = ((2048 + pre.length + lineByteCount l : Nat) : Int) := by
        have hp : (expectedLine (2048 + pre.length) l).nextInstructionAddress =
            2048 + pre.length + lineByteCount l + 1 := rfl
        rw [hp]
        push_cast
        ring
      rw [hproj]
      have ihh := ih (pre ++ lineBytes (2048 + pre.length) l) f
        (fun x hx => h1 x (List.mem_cons_of_mem l hx))
        (by
          simp only [List.length_append, lineBytes_length]
          omega)
        (by
          simp only [List.length_cons] at h3
          omega)
      simp only [List.length_append, lineBytes_length, List.append_assoc,
        ← Nat.add_assoc] at ihh
      rw [ihh]
      simp only [bind_ok_eq]

end SoftScript

namespace SoftScript

theorem assembleAux_linesBytes :
    ∀ (L : List SrcLine) (state : List Nat),
      (∀ l ∈ L, wfLine l = true) →
      state.length + 2048 + totalByteCount L + 1 ≤ 65535 →
      assembleAux state (L.map lineText) =
        .ok (state ++ (linesBytes (state.length + 2048) L).flatten) := by
  intro L
  induction L with
  | nil =>
    intro state h1 h2
    simp [assembleAux, linesBytes]
  | cons l L' ih =>
    intro state h1 h2
    have htot := totalByteCount_cons l L'
    have hwl : wfLine l = true := h1 l (List.mem_cons_self l L')
    simp only [List.map_cons, assembleAux]
    rw [assembleLine_lineText (state.length + 2048) l hwl (by omega)]
    simp only [bind_ok_eq]
    have ihh := ih (state ++ lineBytes (state.length + 2048) l)
      (fun x hx => h1 x (List.mem_cons_of_mem l hx))
      (by simp only [List.length_append, lineBytes_length]; omega)
    simp only [List.length_append, lineBytes_length] at ihh
    have hc : state.length + lineByteCount l + 2048 =
        state.length + 2048 + lineByteCount l := by omega
    rw [hc] at ihh
    rw [ihh]
    simp only [linesBytes, List.flatten_cons, List.append_assoc]

theorem assemble_linesBytes (L : List SrcLine)
    (hwf : ∀ l ∈ L, wfLine l = true)
    (hsize : 2048 + totalByteCount L + 1 ≤ 65535) :
    assemble (L.map lineText) = .ok ((linesBytes 2048 L).flatten ++ [0, 0]) := by
  rw [assemble]
  have h := assembleAux_linesBytes L [] hwf (by simpa using hsize)
  simp only [List.length_nil, Nat.zero_add, List.nil_append] at h
  rw [h]
  rfl

theorem linesBytes_flatten_length :
    ∀ (L : List SrcLine) (addr : Nat),
      ((linesBytes addr L).flatten).length = totalByteCount L := by
  intro L
  induction L with
  | nil =>
    intro addr
    simp [linesBytes, totalByteCount]
  | cons l L' ih =>
    intro addr
    simp only [linesBytes, List.flatten_cons, List.length_append, lineBytes_length,
      totalByteCount_cons, ih]

theorem length_le_totalByteCount : ∀ L : List SrcLine, L.length ≤ totalByteCount L := by
  intro L
  induction L with
  | nil => simp [totalByteCount]
  | cons l L' ih =>
    rw [totalByteCount_cons, List.length_cons]
    have : 1 ≤ lineByteCount l := by rw [lineByteCount]; omega
    omega

theorem expectedLines_full :
    ∀ (L : List SrcLine) (addr : Nat),
      (expectedLines addr L).map (fun d => d.fullInstruction) = L.map lineText := by
  intro L
  induction L with
  | nil =>
    intro addr
    rfl
  | cons l L' ih =>
    intro addr
    simp only [expectedLines, List.map_cons, ih]
    rfl

theorem disassemble_linesBytes (L : List SrcLine)
    (hwf : ∀ l ∈ L, wfLine l = true)
    (hsize : 2048 + totalByteCount L + 1 ≤ 65535) :
    disassemble ((linesBytes 2048 L).flatten ++ [0, 0]) = .ok (expectedLines 2048 L) := by
  rw [disassemble]
  have hloop := disassembleLoop_linesBytes L []
    (((linesBytes 2048 L).flatten ++ [0, 0]).length + 2)
    hwf (by simpa using hsize)
    (by
      have h1 := length_le_totalByteCount L
      have h2 := linesBytes_flatten_length L 2048
      simp only [List.length_append, List.length_cons, List.length_nil]
      omega)
  simp only [List.length_nil, Nat.add_zero, List.nil_append, Nat.cast_ofNat] at hloop
  exact hloop

end SoftScript

namespace SoftScript

/-- C2 (amended): for well-formed structured lines - legal canonical line
number, single-space separation, ASCII atoms, adjacent atoms alternating
between opcode-table hits and misses, except REM lines whose first atom is
exactly `REM` - the assemble/disassemble round trip reproduces every line
verbatim. -/
theorem c2_roundtrip_amended (L : List SrcLine)
    (hwf : ∀ l ∈ L, wfLine l = true)
    (hsize : 2048 + totalByteCount L + 1 ≤ 65535) :
    roundTrip (L.map lineText) = .ok (L.map lineText) := by
  simp only [roundTrip]
  rw [assemble_linesBytes L hwf hsize]
  simp only [bind_ok_eq]
  rw [disassemble_linesBytes L hwf hsize]
  simp only [bind_ok_eq]
  rw [expectedLines_full L 2048]

/-- C2 witness: a two-line program - `1 LET X$ = "hi u"` (alternating
table hits `LET`, `=` and misses `X$`, the quoted string) and `2 REM hello` -
satisfies the well-formedness hypotheses and round-trips verbatim. -/
theorem c2_roundtrip_amended_witness :
    (∀ l ∈ ([⟨1, [.plain ['L', 'E', 'T'], .plain ['X', '$'], .plain ['='],
        .quoted ['h', 'i', ' ', 'u']]⟩,
      ⟨2, [.plain ['R', 'E', 'M'], .plain ['h', 'e', 'l', 'l', 'o']]⟩] : List SrcLine),
      wfLine l = true) ∧
    2048 + totalByteCount [⟨1, [.plain ['L', 'E', 'T'], .plain ['X', '$'], .plain ['='],
        .quoted ['h', 'i', ' ', 'u']]⟩,
      ⟨2, [.plain ['R', 'E', 'M'], .plain ['h', 'e', 'l', 'l', 'o']]⟩] + 1 ≤ 65535 ∧
    roundTrip (([⟨1, [.plain ['L', 'E', 'T'], .plain ['X', '$'], .plain ['='],
        .quoted ['h', 'i', ' ', 'u']]⟩,
      ⟨2, [.plain ['R', 'E', 'M'], .plain ['h', 'e', 'l', 'l', 'o']]⟩] :
        List SrcLine).map lineText) =
      .ok (([⟨1, [.plain ['L', 'E', 'T'], .plain ['X', '$'], .plain ['='],
        .quoted ['h', 'i', ' ', 'u']]⟩,
      ⟨2, [.plain ['R', 'E', 'M'], .plain ['h', 'e', 'l', 'l', 'o']]⟩] :
        List SrcLine).map lineText) :=
  ⟨by decide, by decide, c2_roundtrip_amended _ (by decide) (by decide)⟩

/-- C2 counterexample: the line `10 PRINT X Y` is already
whitespace-normalized, yet the round trip returns `10 PRINT XY`: the
disassembler emits the adjacent table misses `X` and `Y` with no separating
space, so the claim fails as stated for every well-formed list containing
adjacent non-opcode atoms. -/
theorem c2_roundtrip_counterexample :
    roundTrip [['1', '0', ' ', 'P', 'R', 'I', 'N', 'T', ' ', 'X', ' ', 'Y']] =
      .ok [['1', '0', ' ', 'P', 'R', 'I', 'N', 'T', ' ', 'X', 'Y']] ∧
    normalizeWhitespace ['1', '0', ' ', 'P', 'R', 'I', 'N', 'T', ' ', 'X', ' ', 'Y'] =
      ['1', '0', ' ', 'P', 'R', 'I', 'N', 'T', ' ', 'X', ' ', 'Y'] ∧
    ['1', '0', ' ', 'P', 'R', 'I', 'N', 'T', ' ', 'X', 'Y'] ≠
      ['1', '0', ' ', 'P', 'R', 'I', 'N', 'T', ' ', 'X', ' ', 'Y'] :=
  ⟨by decide, by decide, by decide⟩

/-- C3 witness: for the single line `0 A` assembled at 0x0800 into six bytes,
the next-line-address field reads back as 2055 = 0x0800 + 6 + 1, and the
disassembler's loop, having parsed that line with fuel 10, continues with
fuel 9 at 2055 - 1. -/
theorem next_address_written_and_undone_witness :
    readInt16 [7, 8, 0, 0, 65, 0] 0 = .ok 2055 ∧
    disassembleLoop [7, 8, 0, 0, 65, 0, 0, 0] 9 (((2055 : Nat) : Int) - 1) = .ok [] := by
  constructor
  · exact next_address_written_and_undone.1 2048 ['0', ' ', 'A'] [7, 8, 0, 0, 65, 0] (by decide)
  · exact next_address_written_and_undone.2 [7, 8, 0, 0, 65, 0, 0, 0] 9 2048
      { nextInstructionAddress := 2055, line := 0, dataBytes := [65],
        dataString := ['A'], fullInstruction := ['0', ' ', 'A'] } [] (by decide)

end SoftScript
